import Mathlib

/-!
A shallow embedding of the NIRTorch graph executor (`nirtorch/from_nir.py`)
and of the NIR extraction routine (`nirtorch/to_nir.py`), together with
theorems about the behaviour of the executor, the reconstruction step and
the extractor.

Values flowing through the executor are modelled by `V`: either a tensor
(flattened to a list of integers) or a Python tuple of tensors, which is
what stateful units return.  Python dictionaries are modelled as
insertion-ordered association lists, Python exceptions by the `PyErr`
type; computations that can raise return `Except PyErr`.  Python's
`match`/`if` cascades are written with the small combinators `ebind` and
`oelim` (exception propagation and `Option` case analysis) and with `bif`
for boolean tests; they are definitionally the corresponding `match`
expressions.

The `Graph`/`Node` store, the execution-order resolver `trace_execution`
and the name sanitiser live in repository files that are not part of the
two sources above; they are modelled from the specification and marked as
such in their doc comments.
-/

set_option synthInstance.maxSize 1024

namespace NIRTorch

/-- A runtime value: a tensor (flattened to a list of integers) or a Python
tuple of tensors.  Iterating or slicing a one-dimensional tensor yields its
scalar rows, modelled as singleton tensors. -/
inductive V where
  | tensor : List Int → V
  | tup : List (List Int) → V
deriving DecidableEq, Repr

/-- Python exceptions raised by the embedded code.  `valueError` carries the
reported message; the remaining constructors model unreported builtin
exceptions. -/
inductive PyErr where
  | valueError : String → PyErr
  | keyError : PyErr
  | indexError : PyErr
  | typeError : PyErr
  | runtimeError : PyErr
  | assertionError : PyErr
  | nameError : PyErr
deriving DecidableEq, Repr

/-- Equality of `Except` results is decidable when both components are. -/
instance exceptDecEq {ε α : Type} [DecidableEq ε] [DecidableEq α] :
    DecidableEq (Except ε α) := fun x y =>
  match x, y with
  | .error e, .error e' =>
    if h : e = e' then .isTrue (h ▸ rfl)
    else .isFalse (fun hh => h (Except.error.inj hh))
  | .ok a, .ok b =>
    if h : a = b then .isTrue (h ▸ rfl)
    else .isFalse (fun hh => h (Except.ok.inj hh))
  | .error _, .ok _ => .isFalse (fun hh => Except.noConfusion hh)
  | .ok _, .error _ => .isFalse (fun hh => Except.noConfusion hh)

/-- Exception propagation: continue with the payload of an `ok`, propagate
an `error` (a Python statement sequence where any step may raise). -/
def ebind {α β : Type} (x : Except PyErr α) (f : α → Except PyErr β) :
    Except PyErr β :=
  match x with
  | .error e => .error e
  | .ok a => f a

@[simp] theorem ebind_ok {α β : Type} (a : α) (f : α → Except PyErr β) :
    ebind (.ok a) f = f a := rfl

@[simp] theorem ebind_error {α β : Type} (e : PyErr) (f : α → Except PyErr β) :
    ebind (.error e) f = .error e := rfl

/-- `Option` case analysis (Python `is None` tests and dict lookups). -/
def oelim {α β : Type} (x : Option α) (b : β) (f : α → β) : β :=
  match x with
  | none => b
  | some a => f a

@[simp] theorem oelim_none {α β : Type} (b : β) (f : α → β) :
    oelim none b f = b := rfl

@[simp] theorem oelim_some {α β : Type} (a : α) (b : β) (f : α → β) :
    oelim (some a) b f = f a := rfl

/-- Lookup in an insertion-ordered association list (Python `dict` access). -/
def lookupA {α : Type} : List (String × α) → String → Option α
  | [], _ => none
  | (k', v) :: rest, k => if k' = k then some v else lookupA rest k

/-- Membership test (Python `in` on a `dict`). -/
def containsA {α : Type} (l : List (String × α)) (k : String) : Bool :=
  (lookupA l k).isSome

/-- Insertion (Python `d[k] = v`): replaces the value in place when the key
is present, otherwise appends the new entry. -/
def insertA {α : Type} : List (String × α) → String → α → List (String × α)
  | [], k, v => [(k, v)]
  | (k', v') :: rest, k, v =>
    if k' = k then (k, v) :: rest else (k', v') :: insertA rest k v

/-- `out[0]` on a value: the first tuple component, or the first row of a
tensor (a scalar, modelled as a singleton tensor); `IndexError` when empty. -/
def item0 : V → Except PyErr V
  | .tup [] => .error .indexError
  | .tup (t :: _) => .ok (.tensor t)
  | .tensor [] => .error .indexError
  | .tensor (x :: _) => .ok (.tensor [x])

/-- `out[1:]` on a value. -/
def sliceFrom1 : V → V
  | .tup ts => .tup (ts.drop 1)
  | .tensor xs => .tensor (xs.drop 1)

/-- Iterating a value (as in `list.extend(v)`): the components of a tuple,
or the scalar rows of a tensor. -/
def iterElems : V → List V
  | .tup ts => ts.map V.tensor
  | .tensor xs => xs.map (fun x => V.tensor [x])

/-- A concrete computational unit (a `torch.nn.Module`): its forward
function on a list of positional arguments, the number of parameters of its
forward signature (`inspect.signature`), `str(module.__class__)`,
`module.__class__.__name__`, and the `init_hidden` flag carried by snnTorch
units. -/
structure Module where
  run : List V → V
  arity : Nat
  classStr : String
  className : String
  init_hidden : Bool

/-- Whether the first character list is a prefix of the second. -/
def charsPrefixOf : List Char → List Char → Bool
  | [], _ => true
  | _ :: _, [] => false
  | a :: as, b :: bs => a == b && charsPrefixOf as bs

/-- Whether the first character list occurs inside the second. -/
def charsInfixOf : List Char → List Char → Bool
  | pat, [] => charsPrefixOf pat []
  | pat, c :: rest => charsPrefixOf pat (c :: rest) || charsInfixOf pat rest

/-- Python's `in` on strings. -/
def strIn (pat s : String) : Bool :=
  charsInfixOf pat.toList s.toList

/-- `GraphExecutor._is_module_stateful`: snnTorch units of the four listed
kinds use their `init_hidden` flag; otherwise a unit is stateful when its
forward signature has more than one parameter. -/
def isModuleStateful (m : Module) : Bool :=
  bif strIn "snntorch" m.classStr then
    bif ["Synaptic", "RSynaptic", "Leaky", "RLeaky"].contains m.className then
      ! m.init_hidden
    else decide (m.arity > 1)
  else decide (m.arity > 1)

/-- The snnTorch `RSynaptic` class check of `_apply_module` (line 107). -/
def isRSynapticMod (m : Module) : Bool :=
  strIn "snntorch._neurons.rsynaptic.RSynaptic" m.classStr

/-- Modelled from the spec: a node of the `Graph` store (`nirtorch.graph`,
not under `src/`): a unique name and an optional handle to a mapped unit. -/
structure Node where
  name : String
  elem : Option Module

/-- Modelled from the spec: the `Graph` store (`nirtorch.graph`, not under
`src/`): an owned set of nodes, directed edges between node names, and the
ordered list of declared input node names. -/
structure Graph where
  nodes : List Node
  edges : List (String × String)
  inputs : List String

/-- Modelled from the spec: `Graph.find_source_nodes_of` — the nodes with an
edge into `n`. -/
def findSourceNodesOf (g : Graph) (n : Node) : List Node :=
  g.nodes.filter (fun p => g.edges.contains (p.name, n.name))

/-- Modelled from the spec: outgoing adjacency (`node.outgoing_nodes`). -/
def outgoingNodes (g : Graph) (n : Node) : List Node :=
  g.nodes.filter (fun p => g.edges.contains (n.name, p.name))

/-- Modelled from the spec: look a node up by its name. -/
def findNode (g : Graph) (nm : String) : Option Node :=
  g.nodes.find? (fun n => n.name = nm)

/-- Modelled from the spec: the external name-sanitisation collaborator
(`nirtorch.utils.sanitize_name`, not under `src/`); sanitisation is out of
scope for the specification, so it is modelled as the identity on names. -/
def sanitize_name (s : String) : String := s

/-- `GraphExecutor.instantiate_modules`: the statefulness table, keyed by
sanitised node name, for every node that carries a mapped unit. -/
def statefulModules (g : Graph) : List (String × Bool) :=
  g.nodes.filterMap (fun n =>
    n.elem.map (fun m => (sanitize_name n.name, isModuleStateful m)))

/-- Modelled from the spec: the stack/visited recursion of the
execution-order resolver (`trace_execution`, not under `src/`): depth-first
traversal from the start node following outgoing edges, visiting each node
at most once. -/
def traceAux (g : Graph) : Nat → List Node → List Node → List Node
  | 0, _, visited => visited
  | _ + 1, [], visited => visited
  | fuel + 1, n :: stack, visited =>
    bif visited.any (fun v => v.name = n.name) then traceAux g fuel stack visited
    else traceAux g fuel (outgoingNodes g n ++ stack) (visited ++ [n])

/-- Modelled from the spec: the execution-order resolver
(`trace_execution`): the nodes reachable from the start node, each once. -/
def traceExecution (g : Graph) (start : Node) : List Node :=
  traceAux g ((g.nodes.length + 1) * (g.nodes.length + 1) + 1) [start] []

/-- `GraphExecutorState`: the hidden state of stateful units and the cache
of outputs produced by the modules of one forward pass. -/
structure GraphExecutorState where
  state : List (String × V) := []
  cache : List (String × V) := []
deriving DecidableEq, Repr

/-- The constructed executor: the graph, the statefulness table and the
resolved execution order. -/
structure GraphExecutor where
  graph : Graph
  stateful_modules : List (String × Bool)
  execution_order : List Node

/-- Lines 82–84 of `_apply_module`: the prior hidden values extended onto
the argument list — present when the node has an entry in the statefulness
table and the old state holds hidden values for it. -/
def hiddenFor (sm : List (String × Bool)) (oldState : List (String × V))
    (nm : String) : List V :=
  bif (lookupA sm nm).isSome then
    oelim (lookupA oldState nm) [] (fun hv => iterElems hv)
  else []

/-- Lines 86–95 of `_apply_module`: the contributing data inputs — the
primary input (when given) followed by, for each source node, its value
from the previous pass's cache when not yet produced this pass, else from
the current pass's cache. -/
def gatherInputs (inputNodes : List Node) (newS oldS : GraphExecutorState)
    (data : Option V) : List V :=
  (oelim data [] (fun dv => [dv])) ++
  inputNodes.filterMap (fun p =>
    bif ! containsA newS.cache p.name && containsA oldS.cache p.name then
      lookupA oldS.cache p.name
    else bif containsA newS.cache p.name then
      lookupA newS.cache p.name
    else none)

/-- `torch.stack(xs).sum(0)`: the elementwise sum of equally-shaped
tensors; raises for mismatched shapes or non-tensor values. -/
def stackSum : List V → Except PyErr V
  | [] => .error .runtimeError
  | .tup _ :: _ => .error .typeError
  | .tensor x :: rest =>
    bif rest.all (fun w =>
        match w with
        | .tensor y => y.length == x.length
        | .tup _ => false) then
      .ok (.tensor (rest.foldl (fun acc w =>
        match w with
        | .tensor y => List.zipWith (fun a b => a + b) acc y
        | .tup _ => acc) x))
    else .error .runtimeError

/-- Lines 97–102 of `_apply_module`: no contributing input is a fatal error
naming the node; a single input is used directly; several inputs are summed
elementwise. -/
def combineInputs (nodeName : String) : List V → Except PyErr V
  | [] => .error (.valueError ("No inputs found for node " ++ nodeName))
  | [v] => .ok v
  | v :: rest => stackSum (v :: rest)

/-- `GraphExecutor._apply_module` (lines 70–117).  Besides the module
output and the updated state, the result carries — for specification
purposes only — the argument list that was passed to the unit; it does not
influence the computation. -/
def applyModule (sm : List (String × Bool)) (node : Node)
    (inputNodes : List Node) (newS oldS : GraphExecutorState)
    (data : Option V) : Except PyErr (V × GraphExecutorState × List V) :=
  let hiddenV := hiddenFor sm oldS.state node.name
  ebind (combineInputs node.name (gatherInputs inputNodes newS oldS data))
    (fun x =>
      let args := x :: hiddenV
      oelim node.elem (.error .typeError) (fun m =>
        let out := m.run args
        bif isRSynapticMod m && ! m.init_hidden then
          bif strIn "lif" node.name then
            ebind (item0 out) (fun o =>
              .ok (o, { newS with state := insertA newS.state node.name out },
                args))
          else .error .assertionError
        else
          oelim (lookupA sm node.name) (.error .keyError) (fun b =>
            bif b then
              ebind (item0 out) (fun o =>
                .ok (o, { newS with
                  state := insertA newS.state node.name (sliceFrom1 out) }, args))
            else .ok (out, newS, args))))

/-- The node walk of `GraphExecutor.forward` (lines 125–139): nodes without
a mapped unit are skipped; the primary input is handed to the first applied
unit; each produced output is cached under the node's name.  The returned
list records, for specification purposes only, each unit invocation's node
name, the primary-input argument it was handed, and its full argument
list; it does not influence the computation. -/
def forwardLoop (ex : GraphExecutor) (data : V) (oldS : GraphExecutorState) :
    List Node → Bool → GraphExecutorState →
    Except PyErr (GraphExecutorState × List (String × Option V × List V))
  | [], _, newS => .ok (newS, [])
  | n :: rest, fst, newS =>
    let inputNodes := findSourceNodesOf ex.graph n
    oelim n.elem (forwardLoop ex data oldS rest fst newS) (fun _ =>
      let dArg := bif fst then some data else none
      ebind (applyModule ex.stateful_modules n inputNodes newS oldS dArg)
        (fun r =>
          ebind (forwardLoop ex data oldS rest false
              { r.2.1 with cache := insertA r.2.1.cache n.name r.1 })
            (fun pr => .ok (pr.1, (n.name, dArg, r.2.2) :: pr.2))))

/-- Lines 141–144 of `GraphExecutor.forward`: return the cache entry of the
last node of the execution order, falling back to the second-to-last node
when the last one has none.  An empty order leaves the loop variable
unbound (`NameError`); a too-short order or a missing fallback entry raise
`IndexError`/`KeyError`. -/
def outputSelect (ex : GraphExecutor)
    (newS : GraphExecutorState)
    (log : List (String × Option V × List V)) :
    Except PyErr (V × GraphExecutorState × List (String × Option V × List V)) :=
  oelim ex.execution_order.getLast? (.error .nameError) (fun last =>
    oelim (lookupA newS.cache last.name)
      (if 2 ≤ ex.execution_order.length then
        oelim ex.execution_order[ex.execution_order.length - 2]?
          (.error .indexError) (fun n2 =>
          oelim (lookupA newS.cache n2.name) (.error .keyError)
            (fun v => .ok (v, newS, log)))
      else .error .indexError)
      (fun v => .ok (v, newS, log)))

/-- `GraphExecutor.forward` (lines 119–144), with the invocation record of
`forwardLoop` attached. -/
def GraphExecutor.forwardL (ex : GraphExecutor) (data : V)
    (oldState : Option GraphExecutorState) :
    Except PyErr (V × GraphExecutorState × List (String × Option V × List V)) :=
  let oldS := oldState.getD ⟨[], []⟩
  ebind (forwardLoop ex data oldS ex.execution_order true ⟨[], []⟩)
    (fun r => outputSelect ex r.1 r.2)

/-- `GraphExecutor.forward`: exactly the pair the source returns. -/
def GraphExecutor.forward (ex : GraphExecutor) (data : V)
    (oldState : Option GraphExecutorState) :
    Except PyErr (V × GraphExecutorState) :=
  ebind (ex.forwardL data oldState) (fun r => .ok (r.1, r.2.1))

/-- `GraphExecutor.__init__` together with `get_execution_order`: builds the
statefulness table, resolves the execution order from the single declared
input, and rejects a number of declared inputs other than one as well as an
empty resolved order. -/
def mkExecutor (g : Graph) : Except PyErr GraphExecutor :=
  let sm := statefulModules g
  if g.inputs.length ≠ 1 then
    .error (.valueError ("Currently, only one input is supported, but " ++
      toString g.inputs.length ++ " was given"))
  else
    oelim g.inputs.head? (.error .indexError) (fun nm =>
      oelim (findNode g nm) (.error .keyError) (fun start =>
        let order := traceExecution g start
        bif order.isEmpty then .error (.valueError "Graph is empty")
        else .ok ⟨g, sm, order⟩))

/-- An NIR node (`nir.NIRNode`): the recognised kinds `Input(shape)`,
`Output(shape)` and a nested graph `NIRGraph(nodes, edges)`, or an opaque
leaf produced by a caller-supplied mapping (identified by a handle). -/
inductive NirNode where
  | input : List Nat → NirNode
  | output : List Nat → NirNode
  | graph : List (String × NirNode) → List (String × String) → NirNode
  | leaf : Nat → NirNode

/-- A node of the trace produced by the external collaborator
`extract_torch_graph` (out of scope, modelled from the spec): a name, an
opaque unit handle and the names of its recorded successors. -/
structure TorchNode where
  name : String
  elem : Nat
  outgoing : List String
deriving DecidableEq, Repr

/-- The trace (`torch_graph`) handed to `extract_nir_graph`: its node list
in stable call order and the recorded output shape of each unit handle
(`module_output_types`, as a total map over handles). -/
structure TorchGraph where
  node_list : List TorchNode
  module_output_types : Nat → List Nat

/-- Modelled from the spec: `torch_graph.get_root` — the traced nodes with
no incoming edges. -/
def TorchGraph.getRoot (tg : TorchGraph) : List TorchNode :=
  tg.node_list.filter (fun n =>
    ! tg.node_list.any (fun p => p.outgoing.contains n.name))

/-- `np.delete(shape, idxs)`: drop the positions listed in `idxs`. -/
def npDelete (shape : List Nat) (idxs : List Nat) : List Nat :=
  (shape.enum.filter (fun p => ! idxs.contains p.1)).map (fun p => p.2)

/-- The output shape recorded for a traced node, minus the ignored
dimensions (lines 98–103 of `to_nir.py`; an empty `ignore_dims` list is
falsy in Python and means no deletion). -/
def outShapeOf (tg : TorchGraph) (idims : List Nat) (n : TorchNode) : List Nat :=
  if idims ≠ [] then npDelete (tg.module_output_types n.elem) idims
  else tg.module_output_types n.elem

/-- Lines 65–88 of `extract_nir_graph`: map every traced node, inlining a
mapped subgraph's members under a dotted namespace and rewriting its edges
into that namespace; after the first traced node, chain all node names
present so far with consecutive edges. -/
def mapPhase (mmap : Nat → NirNode) :
    List (Nat × TorchNode) → List (String × NirNode) → List (String × String) →
    List (String × NirNode) × List (String × String)
  | [], nodes, edges => (nodes, edges)
  | (indx, node) :: rest, nodes, edges =>
    let step :=
      match mmap node.elem with
      | .graph gnodes gedges =>
        (gnodes.foldl (fun ns kv => insertA ns (node.name ++ "." ++ kv.1) kv.2) nodes,
         edges ++ gedges.map (fun e =>
           (node.name ++ "." ++ e.1, node.name ++ "." ++ e.2)))
      | mapped => (insertA nodes node.name mapped, edges)
    let withChain :=
      if indx = 0 then
        (step.1, step.2 ++ (step.1.map Prod.fst).zip ((step.1.map Prod.fst).drop 1))
      else step
    mapPhase mmap rest withChain.1 withChain.2

/-- Lines 91–106 of `extract_nir_graph`: add an edge for every recorded
successor and, for every traced node with no outgoing edges, store an
`Output` node under the fixed key `"output"` (overwriting any previous one)
together with an edge to it. -/
def sinkPhase (tg : TorchGraph) (idims : List Nat) :
    List TorchNode → List (String × NirNode) → List (String × String) →
    List (String × NirNode) × List (String × String)
  | [], nodes, edges => (nodes, edges)
  | n :: rest, nodes, edges =>
    let edges1 := edges ++ n.outgoing.map (fun dd => (n.name, dd))
    if n.outgoing.length = 0 then
      sinkPhase tg idims rest
        (insertA nodes "output" (.output (outShapeOf tg idims n)))
        (edges1 ++ [(n.name, "output")])
    else sinkPhase tg idims rest nodes edges1

/-- `extract_nir_graph` (from line 49 of `to_nir.py`, after the external
tracing step): fails unless the trace has exactly one root; synthesises the
`Input` node from the sample shape; maps and inlines all traced nodes; adds
successor and output edges; deduplicates the edge list (the source builds a
Python `set`, losing order — here modelled as order-normalising `dedup`,
so edge facts are stated by membership). -/
def extract_nir_graph (tg : TorchGraph) (mmap : Nat → NirNode)
    (sample_shape : List Nat) (ignore_dims : List Nat) :
    Except PyErr (List (String × NirNode) × List (String × String)) :=
  if tg.getRoot.length ≠ 1 then
    .error (.valueError ("Currently, only one input is supported, but " ++
      toString tg.getRoot.length ++ " was given"))
  else
    let inputShape :=
      if ignore_dims ≠ [] then npDelete sample_shape ignore_dims else sample_shape
    let phase1 := mapPhase mmap tg.node_list.enum [("input", .input inputShape)] []
    let phase2 := sinkPhase tg ignore_dims tg.node_list phase1.1 phase1.2
    .ok (phase2.1, phase2.2.dedup)

/-- Line 155 of `_mod_nir_to_graph`: a source endpoint that names no node
is rewritten to `endpoint.output` when that names one. -/
def rewriteSrc (tnodes : List (String × Option Module)) (src : String) : String :=
  bif ! containsA tnodes src && containsA tnodes (src ++ ".output") then
    src ++ ".output"
  else src

/-- Line 157 of `_mod_nir_to_graph`: a destination endpoint that names no
node is rewritten to `endpoint.input` when that names one. -/
def rewriteDst (tnodes : List (String × Option Module)) (dst : String) : String :=
  bif ! containsA tnodes dst && containsA tnodes (dst ++ ".input") then
    dst ++ ".input"
  else dst

/-- Lines 153–159 of `_mod_nir_to_graph`: resolve every IR edge, rewriting
subgraph-boundary endpoints; an endpoint that still names no node raises a
`KeyError` (the `torch_graph.nodes[...]` lookup). -/
def edgeResolve (tnodes : List (String × Option Module)) :
    List (String × String) → Except PyErr (List (String × String))
  | [] => .ok []
  | (s, dd) :: rest =>
    let s' := rewriteSrc tnodes s
    let d' := rewriteDst tnodes dd
    bif containsA tnodes s' && containsA tnodes d' then
      ebind (edgeResolve tnodes rest) (fun es => .ok ((s', d') :: es))
    else .error .keyError

/-- `_mod_nir_to_graph` (lines 147–160): build a `Graph` whose nodes are
the mapped modules, whose inputs are the names of the IR's `Input` nodes,
and whose edges are the resolved IR edges. -/
def modNirToGraph (tnodes : List (String × Option Module))
    (tedges : List (String × String)) (nirNodes : List (String × NirNode)) :
    Except PyErr Graph :=
  let inputs := (nirNodes.filter (fun p =>
    match p.2 with
    | .input _ => true
    | _ => false)).map Prod.fst
  let gnodes := tnodes.map (fun p => Node.mk p.1 p.2)
  ebind (edgeResolve tnodes tedges) (fun es => .ok ⟨gnodes, es, inputs⟩)

/-- The state-prepending step of `_apply_module` as the specification words
it: prior hidden values are PREPENDED as leading call arguments, so the
data input comes after them.  Defined only to compare against
`applyModule`, which follows the source (where `inputs.insert(0, ...)`
puts the data input first). -/
def applyModuleSpecLeading (sm : List (String × Bool)) (node : Node)
    (inputNodes : List Node) (newS oldS : GraphExecutorState)
    (data : Option V) : Except PyErr (V × GraphExecutorState × List V) :=
  let hiddenV := hiddenFor sm oldS.state node.name
  ebind (combineInputs node.name (gatherInputs inputNodes newS oldS data))
    (fun x =>
      let args := hiddenV ++ [x]
      oelim node.elem (.error .typeError) (fun m =>
        let out := m.run args
        bif isRSynapticMod m && ! m.init_hidden then
          bif strIn "lif" node.name then
            ebind (item0 out) (fun o =>
              .ok (o, { newS with state := insertA newS.state node.name out },
                args))
          else .error .assertionError
        else
          oelim (lookupA sm node.name) (.error .keyError) (fun b =>
            bif b then
              ebind (item0 out) (fun o =>
                .ok (o, { newS with
                  state := insertA newS.state node.name (sliceFrom1 out) }, args))
            else .ok (out, newS, args))))

/-- Every contributing source of every node in the execution order is
either produced earlier in the order by a node with a mapped unit, or
never produced at all: the condition under which no value can flow from a
previous pass's cache (no realised feedback edge). -/
abbrev PredsResolved (ex : GraphExecutor) : Prop :=
  ∀ i : Fin ex.execution_order.length,
    ∀ p ∈ findSourceNodesOf ex.graph (ex.execution_order.get i),
      ((∃ j : Fin ex.execution_order.length, j.val < i.val ∧
          (ex.execution_order.get j).name = p.name ∧
          (ex.execution_order.get j).elem.isSome = true) ∨
       ∀ q ∈ ex.execution_order, q.elem.isSome = true → q.name ≠ p.name)

/-- A node is stateless for the executor: either unmapped, or its unit is
recorded as non-stateful and is not the snnTorch `RSynaptic` special case
(which stores state regardless of the table). -/
def NodeStatelessB (sm : List (String × Bool)) (n : Node) : Bool :=
  match n.elem with
  | none => true
  | some m =>
    (lookupA sm n.name == some false) && ! (isRSynapticMod m && ! m.init_hidden)

/-! ### Concrete instances used to exercise the executor -/

/-- A stateless identity unit (`torch.nn.Identity`): one forward parameter,
returns its input. -/
def identityMod : Module :=
  ⟨fun args => args.headD (.tup []), 1, "torch.nn.Identity", "Identity", false⟩

/-- A stateful unit whose visible output is the concatenation of all its
arguments' entries (so the argument order is observable) and whose hidden
state is the tensor `[99]`; two forward parameters, hence stateful. -/
def concatMod : Module :=
  ⟨fun args => .tup [(args.map (fun a =>
      match a with
      | .tensor xs => xs
      | .tup tss => tss.flatten)).flatten, [99]],
   2, "my.package.Concat", "Concat", false⟩

/-- A two-node chain whose second node has no mapped unit. -/
def g2c : Graph := ⟨[⟨"a", some identityMod⟩, ⟨"b", none⟩], [("a", "b")], ["a"]⟩

/-- The executor for `g2c` (its construction succeeds). -/
def ex2c : GraphExecutor :=
  match mkExecutor g2c with
  | .ok e => e
  | .error _ => ⟨g2c, [], []⟩

/-- A two-node chain whose FIRST node has no mapped unit. -/
def g7c : Graph := ⟨[⟨"a", none⟩, ⟨"b", some identityMod⟩], [("a", "b")], ["a"]⟩

/-- The executor for `g7c`. -/
def ex7c : GraphExecutor :=
  match mkExecutor g7c with
  | .ok e => e
  | .error _ => ⟨g7c, [], []⟩

/-- A single stateful node. -/
def gC1 : Graph := ⟨[⟨"a", some concatMod⟩], [], ["a"]⟩

/-- The executor for `gC1`. -/
def exC1 : GraphExecutor :=
  match mkExecutor gC1 with
  | .ok e => e
  | .error _ => ⟨gC1, [], []⟩

/-- The state returned by the first call of `exC1` (hidden value `[99]`
stored for node `a`). -/
def exC1s1 : GraphExecutorState :=
  ⟨[("a", .tup [[99]])], [("a", .tensor [7])]⟩

/-- Two stateless identity nodes joined by a feedback cycle. -/
def g9c : Graph :=
  ⟨[⟨"a", some identityMod⟩, ⟨"b", some identityMod⟩],
   [("a", "b"), ("b", "a")], ["a"]⟩

/-- The executor for `g9c`. -/
def ex9c : GraphExecutor :=
  match mkExecutor g9c with
  | .ok e => e
  | .error _ => ⟨g9c, [], []⟩

/-- A single unmapped node. -/
def g10a : Graph := ⟨[⟨"x", none⟩], [], ["x"]⟩

/-- The executor for `g10a`. -/
def ex10a : GraphExecutor :=
  match mkExecutor g10a with
  | .ok e => e
  | .error _ => ⟨g10a, [], []⟩

/-- Two chained unmapped nodes. -/
def g10b : Graph := ⟨[⟨"x", none⟩, ⟨"y", none⟩], [("x", "y")], ["x"]⟩

/-- The executor for `g10b`. -/
def ex10b : GraphExecutor :=
  match mkExecutor g10b with
  | .ok e => e
  | .error _ => ⟨g10b, [], []⟩

/-- A trace with one root `r` feeding two sink nodes `a` and `b`, whose
recorded output shapes differ (`[2]` and `[3]`). -/
def tg6 : TorchGraph :=
  ⟨[⟨"r", 0, ["a", "b"]⟩, ⟨"a", 1, []⟩, ⟨"b", 2, []⟩],
   fun i => if i = 0 then [9] else if i = 1 then [2] else [3]⟩

/-- A mapped module graph with a subgraph boundary node `sub.output`. -/
def tn8 : List (String × Option Module) :=
  [("sub.output", some identityMod), ("n2", some identityMod),
   ("x", some identityMod)]

/-- IR edges referring to the subgraph `sub` by its bare name. -/
def tedges8 : List (String × String) := [("sub", "n2"), ("x", "n2")]

/-- The IR nodes for the reconstruction example. -/
def nir8 : List (String × NirNode) := [("sub.output", .input [1])]

/-- The graph reconstructed from `tn8`/`tedges8`/`nir8`. -/
def g8res : Graph :=
  match modNirToGraph tn8 tedges8 nir8 with
  | .ok g => g
  | .error _ => ⟨[], [], []⟩

/-- A chain `a → b → c` whose middle node is unmapped, so `c` can gather no
input during a pass. -/
def g5c : Graph :=
  ⟨[⟨"a", some identityMod⟩, ⟨"b", none⟩, ⟨"c", some identityMod⟩],
   [("a", "b"), ("b", "c")], ["a"]⟩

/-- The executor for `g5c`. -/
def ex5c : GraphExecutor :=
  match mkExecutor g5c with
  | .ok e => e
  | .error _ => ⟨g5c, [], []⟩

/-! ### Association-list lemmas -/

theorem lookupA_insertA_self {α : Type} (l : List (String × α)) (k : String)
    (v : α) : lookupA (insertA l k v) k = some v := by
  induction l with
  | nil => simp [insertA, lookupA]
  | cons p rest ih =>
    by_cases h : p.1 = k
    · simp [insertA, h, lookupA]
    · simp [insertA, h, lookupA, ih]

theorem lookupA_insertA_ne {α : Type} (l : List (String × α)) (k k' : String)
    (v : α) (h : k' ≠ k) : lookupA (insertA l k v) k' = lookupA l k' := by
  induction l with
  | nil =>
    simp only [insertA, lookupA]
    rw [if_neg (fun he => h he.symm)]
  | cons p rest ih =>
    by_cases hp : p.1 = k
    · subst hp
      simp only [insertA, if_pos rfl, lookupA]
      rw [if_neg (fun he => h he.symm), if_neg (fun he => h he.symm)]
    · simp only [insertA, if_neg hp, lookupA]
      by_cases hk : p.1 = k'
      · simp [hk]
      · simp [hk, ih]

theorem containsA_insertA {α : Type} (l : List (String × α)) (k k' : String)
    (v : α) :
    containsA (insertA l k v) k' = (k' = k ∨ containsA l k' = true) := by
  by_cases h : k' = k
  · subst h
    simp [containsA, lookupA_insertA_self]
  · simp [containsA, lookupA_insertA_ne l k k' v h, h]

theorem containsA_false_lookupA {α : Type} (l : List (String × α))
    (k : String) (h : containsA l k = false) : lookupA l k = none := by
  simpa [containsA, Option.isSome_iff_exists] using h

/-! ### Lemmas about `_apply_module` -/

theorem applyModule_inv (sm : List (String × Bool)) (node : Node)
    (inputNodes : List Node) (newS oldS : GraphExecutorState) (data : Option V)
    (o : V) (st : GraphExecutorState) (args : List V)
    (h : applyModule sm node inputNodes newS oldS data = .ok (o, st, args)) :
    ∃ x m,
      combineInputs node.name (gatherInputs inputNodes newS oldS data) = .ok x ∧
      node.elem = some m ∧
      args = x :: hiddenFor sm oldS.state node.name ∧
      st.cache = newS.cache ∧
      (((isRSynapticMod m && ! m.init_hidden) = true ∧
          item0 (m.run args) = .ok o ∧
          st.state = insertA newS.state node.name (m.run args)) ∨
       ((isRSynapticMod m && ! m.init_hidden) = false ∧
          lookupA sm node.name = some true ∧
          item0 (m.run args) = .ok o ∧
          st.state = insertA newS.state node.name (sliceFrom1 (m.run args))) ∨
       ((isRSynapticMod m && ! m.init_hidden) = false ∧
          lookupA sm node.name = some false ∧
          o = m.run args ∧ st.state = newS.state)) := by
  simp only [applyModule] at h
  rcases hc : combineInputs node.name (gatherInputs inputNodes newS oldS data)
    with e | x
  · rw [hc] at h
    simp at h
  · rw [hc] at h
    simp only [ebind_ok] at h
    rcases hne : node.elem with - | m
    · rw [hne] at h
      simp at h
    · rw [hne] at h
      simp only [oelim_some] at h
      refine ⟨x, m, rfl, rfl, ?_⟩
      rcases hb1 : isRSynapticMod m && ! m.init_hidden with - | -
      · rw [hb1] at h
        simp only [Bool.cond_false] at h
        rcases hlk : lookupA sm node.name with - | b
        · rw [hlk] at h
          simp at h
        · rw [hlk] at h
          simp only [oelim_some] at h
          rcases b with - | -
          · simp only [Bool.cond_false, Except.ok.injEq, Prod.mk.injEq] at h
            obtain ⟨ho, hst, hargs⟩ := h
            subst hst
            refine ⟨hargs.symm, rfl, Or.inr (Or.inr ⟨rfl, rfl, ?_, rfl⟩)⟩
            rw [← hargs, ho]
          · simp only [Bool.cond_true] at h
            rcases hi : item0 (m.run (x :: hiddenFor sm oldS.state node.name))
              with e2 | o2
            · rw [hi] at h
              simp at h
            · rw [hi] at h
              simp only [ebind_ok, Except.ok.injEq, Prod.mk.injEq] at h
              obtain ⟨ho, hst, hargs⟩ := h
              subst hst
              refine ⟨hargs.symm, rfl, Or.inr (Or.inl ⟨rfl, rfl, ?_, ?_⟩)⟩
              · rw [← hargs, hi, ho]
              · rw [← hargs]
      · rw [hb1] at h
        simp only [Bool.cond_true] at h
        rcases hb2 : strIn "lif" node.name with - | -
        · rw [hb2] at h
          simp at h
        · rw [hb2] at h
          simp only [Bool.cond_true] at h
          rcases hi : item0 (m.run (x :: hiddenFor sm oldS.state node.name))
            with e2 | o2
          · rw [hi] at h
            simp at h
          · rw [hi] at h
            simp only [ebind_ok, Except.ok.injEq, Prod.mk.injEq] at h
            obtain ⟨ho, hst, hargs⟩ := h
            subst hst
            refine ⟨hargs.symm, rfl, Or.inl ⟨rfl, ?_, ?_⟩⟩
            · rw [← hargs, hi, ho]
            · rw [← hargs]

theorem applyModule_ok_args (sm : List (String × Bool)) (node : Node)
    (inputNodes : List Node) (newS oldS : GraphExecutorState) (data : Option V)
    (o : V) (st : GraphExecutorState) (args : List V)
    (h : applyModule sm node inputNodes newS oldS data = .ok (o, st, args)) :
    ∃ x, combineInputs node.name (gatherInputs inputNodes newS oldS data) = .ok x ∧
      args = x :: hiddenFor sm oldS.state node.name := by
  obtain ⟨x, m, h1, -, h3, -⟩ := applyModule_inv sm node inputNodes newS oldS data
    o st args h
  exact ⟨x, h1, h3⟩

theorem applyModule_ok_cache (sm : List (String × Bool)) (node : Node)
    (inputNodes : List Node) (newS oldS : GraphExecutorState) (data : Option V)
    (o : V) (st : GraphExecutorState) (args : List V)
    (h : applyModule sm node inputNodes newS oldS data = .ok (o, st, args)) :
    st.cache = newS.cache := by
  obtain ⟨x, m, -, -, -, h4, -⟩ := applyModule_inv sm node inputNodes newS oldS data
    o st args h
  exact h4

theorem applyModule_state_other (sm : List (String × Bool)) (node : Node)
    (inputNodes : List Node) (newS oldS : GraphExecutorState) (data : Option V)
    (o : V) (st : GraphExecutorState) (args : List V) (k : String)
    (hk : k ≠ node.name)
    (h : applyModule sm node inputNodes newS oldS data = .ok (o, st, args)) :
    lookupA st.state k = lookupA newS.state k := by
  obtain ⟨x, m, -, -, -, -, hd⟩ := applyModule_inv sm node inputNodes newS oldS data
    o st args h
  rcases hd with ⟨-, -, hs⟩ | ⟨-, -, -, hs⟩ | ⟨-, -, -, hs⟩ <;>
    rw [hs] <;> first
      | rfl
      | exact lookupA_insertA_ne _ _ _ _ hk

theorem applyModule_stateful_state (sm : List (String × Bool)) (node : Node)
    (inputNodes : List Node) (newS oldS : GraphExecutorState) (data : Option V)
    (m : Module) (o : V) (st : GraphExecutorState) (args : List V)
    (helem : node.elem = some m)
    (hsm : lookupA sm node.name = some true)
    (hrs : (isRSynapticMod m && ! m.init_hidden) = false)
    (h : applyModule sm node inputNodes newS oldS data = .ok (o, st, args)) :
    lookupA st.state node.name = some (sliceFrom1 (m.run args)) := by
  obtain ⟨x, m', -, helem', -, -, hd⟩ := applyModule_inv sm node inputNodes newS
    oldS data o st args h
  rw [helem] at helem'
  injection helem' with hm
  subst hm
  rcases hd with ⟨hb, -, -⟩ | ⟨-, -, -, hs⟩ | ⟨-, hlk, -, -⟩
  · rw [hrs] at hb
    cases hb
  · rw [hs, lookupA_insertA_self]
  · rw [hsm] at hlk
    cases hlk

theorem applyModule_stateless_id (sm : List (String × Bool)) (node : Node)
    (inputNodes : List Node) (newS oldS : GraphExecutorState) (data : Option V)
    (m : Module) (o : V) (st : GraphExecutorState) (args : List V)
    (helem : node.elem = some m)
    (hsm : lookupA sm node.name = some false)
    (hrs : (isRSynapticMod m && ! m.init_hidden) = false)
    (h : applyModule sm node inputNodes newS oldS data = .ok (o, st, args)) :
    st = newS := by
  obtain ⟨x, m', -, helem', -, hc, hd⟩ := applyModule_inv sm node inputNodes newS
    oldS data o st args h
  rw [helem] at helem'
  injection helem' with hm
  subst hm
  rcases hd with ⟨hb, -, -⟩ | ⟨-, hlk, -, -⟩ | ⟨-, -, -, hs⟩
  · rw [hrs] at hb
    cases hb
  · rw [hsm] at hlk
    injection hlk with hb
    cases hb
  · obtain ⟨sts, stc⟩ := st
    obtain ⟨ns, nc⟩ := newS
    simp only at hc hs
    rw [hc, hs]

theorem applyModule_oldS_congr (sm : List (String × Bool)) (node : Node)
    (inputNodes : List Node) (newS oldS1 oldS2 : GraphExecutorState)
    (data : Option V)
    (hstate : oldS1.state = oldS2.state)
    (hgather : gatherInputs inputNodes newS oldS1 data =
      gatherInputs inputNodes newS oldS2 data) :
    applyModule sm node inputNodes newS oldS1 data =
      applyModule sm node inputNodes newS oldS2 data := by
  simp only [applyModule, hstate, hgather]

/-! ### Lemmas about the forward walk -/

theorem forwardLoop_log_entries (ex : GraphExecutor) (d : V)
    (oldS : GraphExecutorState) (l : List Node) :
    ∀ (fst : Bool) (newS finS : GraphExecutorState)
      (log : List (String × Option V × List V)),
      forwardLoop ex d oldS l fst newS = .ok (finS, log) →
      ∀ e ∈ log, ∃ n, n ∈ l ∧ n.name = e.1 ∧ n.elem.isSome = true ∧
        ∃ x, e.2.2 = x :: hiddenFor ex.stateful_modules oldS.state e.1 := by
  induction l with
  | nil =>
    intro fst newS finS log h e he
    simp only [forwardLoop, Except.ok.injEq, Prod.mk.injEq] at h
    rw [← h.2] at he
    cases he
  | cons n rest ih =>
    intro fst newS finS log h e he
    simp only [forwardLoop] at h
    rcases hne : n.elem with - | m
    · rw [hne] at h
      simp only [oelim_none] at h
      obtain ⟨q, hq, h1, h2, h3⟩ := ih fst newS finS log h e he
      exact ⟨q, List.mem_cons_of_mem n hq, h1, h2, h3⟩
    · rw [hne] at h
      simp only [oelim_some] at h
      rcases hap : applyModule ex.stateful_modules n (findSourceNodesOf ex.graph n)
          newS oldS (bif fst then some d else none) with er | r
      · rw [hap] at h
        simp at h
      · obtain ⟨out, newS2, args⟩ := r
        rw [hap] at h
        simp only [ebind_ok] at h
        rcases hrec : forwardLoop ex d oldS rest false
            { newS2 with cache := insertA newS2.cache n.name out } with er2 | pr
        · rw [hrec] at h
          simp at h
        · obtain ⟨finS', tl⟩ := pr
          rw [hrec] at h
          simp only [ebind_ok, Except.ok.injEq, Prod.mk.injEq] at h
          obtain ⟨hfin, hlog⟩ := h
          rw [← hlog] at he
          rcases List.mem_cons.mp he with he1 | he2
          · refine ⟨n, List.mem_cons_self n rest, ?_, ?_, ?_⟩
            · rw [he1]
            · rw [hne]
              rfl
            · obtain ⟨x, -, hargs⟩ :=
                applyModule_ok_args _ _ _ _ _ _ _ _ _ hap
              refine ⟨x, ?_⟩
              rw [he1]
              exact hargs
          · obtain ⟨q, hq, h1, h2, h3⟩ := ih false _ finS' tl hrec e he2
            exact ⟨q, List.mem_cons_of_mem n hq, h1, h2, h3⟩

theorem forwardLoop_log_false (ex : GraphExecutor) (d : V)
    (oldS : GraphExecutorState) (l : List Node) :
    ∀ (newS finS : GraphExecutorState)
      (log : List (String × Option V × List V)),
      forwardLoop ex d oldS l false newS = .ok (finS, log) →
      ∀ e ∈ log, e.2.1 = none := by
  induction l with
  | nil =>
    intro newS finS log h e he
    simp only [forwardLoop, Except.ok.injEq, Prod.mk.injEq] at h
    rw [← h.2] at he
    cases he
  | cons n rest ih =>
    intro newS finS log h e he
    simp only [forwardLoop] at h
    rcases hne : n.elem with - | m
    · rw [hne] at h
      simp only [oelim_none] at h
      exact ih newS finS log h e he
    · rw [hne] at h
      simp only [oelim_some] at h
      rcases hap : applyModule ex.stateful_modules n (findSourceNodesOf ex.graph n)
          newS oldS (bif false then some d else none) with er | r
      · rw [hap] at h
        simp at h
      · obtain ⟨out, newS2, args⟩ := r
        rw [hap] at h
        simp only [ebind_ok] at h
        rcases hrec : forwardLoop ex d oldS rest false
            { newS2 with cache := insertA newS2.cache n.name out } with er2 | pr
        · rw [hrec] at h
          simp at h
        · obtain ⟨finS', tl⟩ := pr
          rw [hrec] at h
          simp only [ebind_ok, Except.ok.injEq, Prod.mk.injEq] at h
          rw [← h.2] at he
          rcases List.mem_cons.mp he with he1 | he2
          · rw [he1]
            rfl
          · exact ih _ finS' tl hrec e he2

theorem forwardLoop_log_head (ex : GraphExecutor) (d : V)
    (oldS : GraphExecutorState) (l : List Node) :
    ∀ (fst : Bool) (newS finS : GraphExecutorState)
      (log : List (String × Option V × List V)),
      forwardLoop ex d oldS l fst newS = .ok (finS, log) →
      ∀ hd, log.head? = some hd →
        hd.2.1 = (bif fst then some d else none) ∧
        ∃ n, l.find? (fun q => q.elem.isSome) = some n ∧ n.name = hd.1 := by
  induction l with
  | nil =>
    intro fst newS finS log h hd hhd
    simp only [forwardLoop, Except.ok.injEq, Prod.mk.injEq] at h
    rw [← h.2] at hhd
    cases hhd
  | cons n rest ih =>
    intro fst newS finS log h hd hhd
    simp only [forwardLoop] at h
    rcases hne : n.elem with - | m
    · rw [hne] at h
      simp only [oelim_none] at h
      obtain ⟨h1, q, h2, h3⟩ := ih fst newS finS log h hd hhd
      refine ⟨h1, q, ?_, h3⟩
      rw [List.find?_cons_of_neg _ (by simp [hne])]
      exact h2
    · rw [hne] at h
      simp only [oelim_some] at h
      rcases hap : applyModule ex.stateful_modules n (findSourceNodesOf ex.graph n)
          newS oldS (bif fst then some d else none) with er | r
      · rw [hap] at h
        simp at h
      · obtain ⟨out, newS2, args⟩ := r
        rw [hap] at h
        simp only [ebind_ok] at h
        rcases hrec : forwardLoop ex d oldS rest false
            { newS2 with cache := insertA newS2.cache n.name out } with er2 | pr
        · rw [hrec] at h
          simp at h
        · obtain ⟨finS', tl⟩ := pr
          rw [hrec] at h
          simp only [ebind_ok, Except.ok.injEq, Prod.mk.injEq] at h
          rw [← h.2] at hhd
          simp only [List.head?_cons, Option.some.injEq] at hhd
          subst hhd
          refine ⟨rfl, n, ?_, rfl⟩
          exact List.find?_cons_of_pos _ (by simp [hne])

theorem forwardLoop_log_tail_none (ex : GraphExecutor) (d : V)
    (oldS : GraphExecutorState) (l : List Node) (fst : Bool)
    (newS finS : GraphExecutorState)
    (log : List (String × Option V × List V))
    (h : forwardLoop ex d oldS l fst newS = .ok (finS, log)) :
    ∀ e ∈ log.drop 1, e.2.1 = none := by
  induction l generalizing fst newS finS log with
  | nil =>
    intro e he
    simp only [forwardLoop, Except.ok.injEq, Prod.mk.injEq] at h
    rw [← h.2] at he
    cases he
  | cons n rest ih =>
    intro e he
    simp only [forwardLoop] at h
    rcases hne : n.elem with - | m
    · rw [hne] at h
      simp only [oelim_none] at h
      exact ih fst newS finS log h e he
    · rw [hne] at h
      simp only [oelim_some] at h
      rcases hap : applyModule ex.stateful_modules n (findSourceNodesOf ex.graph n)
          newS oldS (bif fst then some d else none) with er | r
      · rw [hap] at h
        simp at h
      · obtain ⟨out, newS2, args⟩ := r
        rw [hap] at h
        simp only [ebind_ok] at h
        rcases hrec : forwardLoop ex d oldS rest false
            { newS2 with cache := insertA newS2.cache n.name out } with er2 | pr
        · rw [hrec] at h
          simp at h
        · obtain ⟨finS', tl⟩ := pr
          rw [hrec] at h
          simp only [ebind_ok, Except.ok.injEq, Prod.mk.injEq] at h
          rw [← h.2] at he
          simp only [List.drop_one, List.tail_cons] at he
          exact forwardLoop_log_false ex d oldS rest _ finS' tl hrec e he

theorem forwardLoop_cache_keys (ex : GraphExecutor) (d : V)
    (oldS : GraphExecutorState) (l : List Node) :
    ∀ (fst : Bool) (newS finS : GraphExecutorState)
      (log : List (String × Option V × List V)),
      forwardLoop ex d oldS l fst newS = .ok (finS, log) →
      ∀ nm, containsA finS.cache nm = true ↔
        (containsA newS.cache nm = true ∨
          ∃ q, q ∈ l ∧ q.elem.isSome = true ∧ q.name = nm) := by
  induction l with
  | nil =>
    intro fst newS finS log h nm
    simp only [forwardLoop, Except.ok.injEq, Prod.mk.injEq] at h
    rw [← h.1]
    simp
  | cons n rest ih =>
    intro fst newS finS log h nm
    simp only [forwardLoop] at h
    rcases hne : n.elem with - | m
    · rw [hne] at h
      simp only [oelim_none] at h
      rw [ih fst newS finS log h nm]
      simp only [List.mem_cons]
      constructor
      · rintro (hc | ⟨q, hq, h2, h3⟩)
        · exact Or.inl hc
        · exact Or.inr ⟨q, Or.inr hq, h2, h3⟩
      · rintro (hc | ⟨q, hq | hq, h2, h3⟩)
        · exact Or.inl hc
        · subst hq
          simp [hne] at h2
        · exact Or.inr ⟨q, hq, h2, h3⟩
    · rw [hne] at h
      simp only [oelim_some] at h
      rcases hap : applyModule ex.stateful_modules n (findSourceNodesOf ex.graph n)
          newS oldS (bif fst then some d else none) with er | r
      · rw [hap] at h
        simp at h
      · obtain ⟨out, newS2, args⟩ := r
        rw [hap] at h
        simp only [ebind_ok] at h
        rcases hrec : forwardLoop ex d oldS rest false
            { newS2 with cache := insertA newS2.cache n.name out } with er2 | pr
        · rw [hrec] at h
          simp at h
        · obtain ⟨finS', tl⟩ := pr
          rw [hrec] at h
          simp only [ebind_ok, Except.ok.injEq, Prod.mk.injEq] at h
          have hcache : newS2.cache = newS.cache :=
            applyModule_ok_cache _ _ _ _ _ _ _ _ _ hap
          have key := ih false _ finS' tl hrec nm
          rw [show ({ newS2 with cache := insertA newS2.cache n.name out} :
            GraphExecutorState).cache = insertA newS2.cache n.name out from rfl,
            containsA_insertA, hcache] at key
          rw [← h.1, key]
          simp only [List.mem_cons]
          constructor
          · rintro ((hq | hc) | ⟨q, hq, h2, h3⟩)
            · exact Or.inr ⟨n, Or.inl rfl, by simp [hne], hq.symm⟩
            · exact Or.inl hc
            · exact Or.inr ⟨q, Or.inr hq, h2, h3⟩
          · rintro (hc | ⟨q, hq | hq, h2, h3⟩)
            · exact Or.inl (Or.inr hc)
            · subst hq
              exact Or.inl (Or.inl h3.symm)
            · exact Or.inr ⟨q, hq, h2, h3⟩

theorem forwardLoop_state_untouched (ex : GraphExecutor) (d : V)
    (oldS : GraphExecutorState) (nm : String) (l : List Node) :
    ∀ (fst : Bool) (newS finS : GraphExecutorState)
      (log : List (String × Option V × List V)),
      (∀ q ∈ l, q.name ≠ nm) →
      forwardLoop ex d oldS l fst newS = .ok (finS, log) →
      lookupA finS.state nm = lookupA newS.state nm := by
  induction l with
  | nil =>
    intro fst newS finS log hq h
    simp only [forwardLoop, Except.ok.injEq, Prod.mk.injEq] at h
    rw [← h.1]
  | cons n rest ih =>
    intro fst newS finS log hq h
    simp only [forwardLoop] at h
    rcases hne : n.elem with - | m
    · rw [hne] at h
      simp only [oelim_none] at h
      exact ih fst newS finS log (fun q hqq => hq q (List.mem_cons_of_mem n hqq)) h
    · rw [hne] at h
      simp only [oelim_some] at h
      rcases hap : applyModule ex.stateful_modules n (findSourceNodesOf ex.graph n)
          newS oldS (bif fst then some d else none) with er | r
      · rw [hap] at h
        simp at h
      · obtain ⟨out, newS2, args⟩ := r
        rw [hap] at h
        simp only [ebind_ok] at h
        rcases hrec : forwardLoop ex d oldS rest false
            { newS2 with cache := insertA newS2.cache n.name out } with er2 | pr
        · rw [hrec] at h
          simp at h
        · obtain ⟨finS', tl⟩ := pr
          rw [hrec] at h
          simp only [ebind_ok, Except.ok.injEq, Prod.mk.injEq] at h
          rw [← h.1]
          have step := ih false _ finS' tl
            (fun q hqq => hq q (List.mem_cons_of_mem n hqq)) hrec
          rw [step]
          show lookupA newS2.state nm = lookupA newS.state nm
          exact applyModule_state_other _ _ _ _ _ _ _ _ _ nm
            (fun he => hq n (List.mem_cons_self n rest) he.symm) hap

theorem forwardLoop_state_stateless (ex : GraphExecutor) (d : V)
    (oldS : GraphExecutorState) (l : List Node) :
    ∀ (fst : Bool) (newS finS : GraphExecutorState)
      (log : List (String × Option V × List V)),
      (∀ n ∈ l, ∀ m, n.elem = some m →
        lookupA ex.stateful_modules n.name = some false ∧
        (isRSynapticMod m && ! m.init_hidden) = false) →
      forwardLoop ex d oldS l fst newS = .ok (finS, log) →
      finS.state = newS.state := by
  induction l with
  | nil =>
    intro fst newS finS log hl h
    simp only [forwardLoop, Except.ok.injEq, Prod.mk.injEq] at h
    rw [← h.1]
  | cons n rest ih =>
    intro fst newS finS log hl h
    simp only [forwardLoop] at h
    rcases hne : n.elem with - | m
    · rw [hne] at h
      simp only [oelim_none] at h
      exact ih fst newS finS log
        (fun q hqq => hl q (List.mem_cons_of_mem n hqq)) h
    · rw [hne] at h
      simp only [oelim_some] at h
      rcases hap : applyModule ex.stateful_modules n (findSourceNodesOf ex.graph n)
          newS oldS (bif fst then some d else none) with er | r
      · rw [hap] at h
        simp at h
      · obtain ⟨out, newS2, args⟩ := r
        rw [hap] at h
        simp only [ebind_ok] at h
        rcases hrec : forwardLoop ex d oldS rest false
            { newS2 with cache := insertA newS2.cache n.name out } with er2 | pr
        · rw [hrec] at h
          simp at h
        · obtain ⟨finS', tl⟩ := pr
          rw [hrec] at h
          simp only [ebind_ok, Except.ok.injEq, Prod.mk.injEq] at h
          obtain ⟨hsm, hrs⟩ := hl n (List.mem_cons_self n rest) m hne
          have hid : newS2 = newS :=
            applyModule_stateless_id _ _ _ _ _ _ _ _ _ _ hne hsm hrs hap
          have step := ih false _ finS' tl
            (fun q hqq => hl q (List.mem_cons_of_mem n hqq)) hrec
          rw [← h.1, step, hid]

theorem forwardLoop_state_final (ex : GraphExecutor) (d : V)
    (oldS : GraphExecutorState) (l : List Node) :
    ∀ (fst : Bool) (newS finS : GraphExecutorState)
      (log : List (String × Option V × List V)),
      (l.map Node.name).Nodup →
      forwardLoop ex d oldS l fst newS = .ok (finS, log) →
      ∀ nm d0 args, (nm, d0, args) ∈ log →
      ∀ n m, n ∈ l → n.name = nm → n.elem = some m →
        lookupA ex.stateful_modules nm = some true →
        (isRSynapticMod m && ! m.init_hidden) = false →
        lookupA finS.state nm = some (sliceFrom1 (m.run args)) := by
  induction l with
  | nil =>
    intro fst newS finS log hnd h nm d0 args he n m hn
    cases hn
  | cons n0 rest ih =>
    intro fst newS finS log hnd h nm d0 args he n m hn hname helem hsm hrs
    simp only [forwardLoop] at h
    rcases hne : n0.elem with - | m0
    · rw [hne] at h
      simp only [oelim_none] at h
      rcases List.mem_cons.mp hn with hn1 | hn2
      · rw [hn1, hne] at helem
        cases helem
      · exact ih fst newS finS log (List.Nodup.of_cons hnd) h nm d0 args he
          n m hn2 hname helem hsm hrs
    · rw [hne] at h
      simp only [oelim_some] at h
      rcases hap : applyModule ex.stateful_modules n0 (findSourceNodesOf ex.graph n0)
          newS oldS (bif fst then some d else none) with er | r
      · rw [hap] at h
        simp at h
      · obtain ⟨out, newS2, args0⟩ := r
        rw [hap] at h
        simp only [ebind_ok] at h
        rcases hrec : forwardLoop ex d oldS rest false
            { newS2 with cache := insertA newS2.cache n0.name out } with er2 | pr
        · rw [hrec] at h
          simp at h
        · obtain ⟨finS', tl⟩ := pr
          rw [hrec] at h
          simp only [ebind_ok, Except.ok.injEq, Prod.mk.injEq] at h
          obtain ⟨hfin, hlog⟩ := h
          rw [← hlog] at he
          have hn0rest : ∀ q ∈ rest, q.name ≠ n0.name := by
            intro q hq heq
            have := (List.nodup_cons.mp hnd).1
            exact this (heq ▸ List.mem_map_of_mem Node.name hq)
          rcases List.mem_cons.mp he with he1 | he2
          · have hnm : nm = n0.name := by
              have := congrArg Prod.fst he1
              exact this
            have hargs : args = args0 := by
              have := congrArg (fun p => p.2.2) he1
              exact this
            have hnn0 : n = n0 := by
              rcases List.mem_cons.mp hn with hh | hh
              · exact hh
              · exact absurd (hname.trans hnm) (hn0rest n hh)
            have hm : m0 = m := by
              rw [hnn0, hne] at helem
              injection helem
            have hstored : lookupA newS2.state n0.name =
                some (sliceFrom1 (m0.run args0)) := by
              refine applyModule_stateful_state _ _ _ _ _ _ _ _ _ _ hne ?_ ?_ hap
              · rw [← hnm]
                exact hsm
              · rw [hm]
                exact hrs
            have huntouched := forwardLoop_state_untouched ex d oldS n0.name rest
              false _ finS' tl hn0rest hrec
            rw [← hfin, hnm] at *
            rw [huntouched]
            rw [show ({ newS2 with cache := insertA newS2.cache n0.name out} :
              GraphExecutorState).state = newS2.state from rfl]
            rw [hstored, hm, hargs]
          · rcases List.mem_cons.mp hn with hh | hh
            · obtain ⟨q, hq, hqname, -, -⟩ :=
                forwardLoop_log_entries ex d oldS rest false _ finS' tl hrec
                  (nm, d0, args) he2
              rw [hh] at hname
              exact absurd (hqname.trans hname.symm) (hn0rest q hq)
            · have := ih false _ finS' tl (List.Nodup.of_cons hnd) hrec
                nm d0 args he2 n m hh hname helem hsm hrs
              rw [← hfin]
              exact this

/-! ### Lemmas about the output selection and `forward` -/

theorem outputSelect_inv (ex : GraphExecutor) (newS : GraphExecutorState)
    (log : List (String × Option V × List V))
    (tr : V × GraphExecutorState × List (String × Option V × List V))
    (h : outputSelect ex newS log = .ok tr) :
    tr.2.1 = newS ∧ tr.2.2 = log ∧
    ∃ last, ex.execution_order.getLast? = some last ∧
      (lookupA newS.cache last.name = some tr.1 ∨
        (lookupA newS.cache last.name = none ∧ 2 ≤ ex.execution_order.length ∧
          ∃ n2, ex.execution_order[ex.execution_order.length - 2]? = some n2 ∧
            lookupA newS.cache n2.name = some tr.1)) := by
  simp only [outputSelect] at h
  rcases hlast : ex.execution_order.getLast? with - | last
  · rw [hlast] at h
    simp at h
  · rw [hlast] at h
    simp only [oelim_some] at h
    rcases hlk : lookupA newS.cache last.name with - | v
    · rw [hlk] at h
      simp only [oelim_none] at h
      by_cases hlen : 2 ≤ ex.execution_order.length
      · rw [if_pos hlen] at h
        rcases hn2 : ex.execution_order[ex.execution_order.length - 2]? with - | n2
        · rw [hn2] at h
          simp at h
        · rw [hn2] at h
          simp only [oelim_some] at h
          rcases hlk2 : lookupA newS.cache n2.name with - | v2
          · rw [hlk2] at h
            simp at h
          · rw [hlk2] at h
            simp only [oelim_some, Except.ok.injEq] at h
            rw [← h]
            exact ⟨rfl, rfl, last, rfl, Or.inr ⟨hlk, hlen, n2, rfl, hlk2⟩⟩
      · rw [if_neg hlen] at h
        simp at h
    · rw [hlk] at h
      simp only [oelim_some, Except.ok.injEq] at h
      rw [← h]
      exact ⟨rfl, rfl, last, rfl, Or.inl hlk⟩

theorem outputSelect_fallback (ex : GraphExecutor) (newS : GraphExecutorState)
    (log : List (String × Option V × List V)) (last n2 : Node) (v : V)
    (hlast : ex.execution_order.getLast? = some last)
    (hlk : lookupA newS.cache last.name = none)
    (hlen : 2 ≤ ex.execution_order.length)
    (hn2 : ex.execution_order[ex.execution_order.length - 2]? = some n2)
    (hlk2 : lookupA newS.cache n2.name = some v) :
    outputSelect ex newS log = .ok (v, newS, log) := by
  simp only [outputSelect, hlast, oelim_some, hlk, oelim_none, if_pos hlen,
    hn2, hlk2]

theorem outputSelect_short (ex : GraphExecutor) (newS : GraphExecutorState)
    (log : List (String × Option V × List V)) (last : Node)
    (hlast : ex.execution_order.getLast? = some last)
    (hlk : lookupA newS.cache last.name = none)
    (hlen : ¬ 2 ≤ ex.execution_order.length) :
    outputSelect ex newS log = .error .indexError := by
  simp only [outputSelect, hlast, oelim_some, hlk, oelim_none, if_neg hlen]

theorem outputSelect_keyError (ex : GraphExecutor) (newS : GraphExecutorState)
    (log : List (String × Option V × List V)) (last n2 : Node)
    (hlast : ex.execution_order.getLast? = some last)
    (hlk : lookupA newS.cache last.name = none)
    (hlen : 2 ≤ ex.execution_order.length)
    (hn2 : ex.execution_order[ex.execution_order.length - 2]? = some n2)
    (hlk2 : lookupA newS.cache n2.name = none) :
    outputSelect ex newS log = .error .keyError := by
  simp only [outputSelect, hlast, oelim_some, hlk, oelim_none, if_pos hlen,
    hn2, hlk2]

theorem forward_ok_inv (ex : GraphExecutor) (d : V)
    (oldState : Option GraphExecutorState) (o : V) (s : GraphExecutorState)
    (h : ex.forward d oldState = .ok (o, s)) :
    ∃ log, forwardLoop ex d (oldState.getD ⟨[], []⟩) ex.execution_order true
        ⟨[], []⟩ = .ok (s, log) ∧
      outputSelect ex s log = .ok (o, s, log) := by
  simp only [GraphExecutor.forward, GraphExecutor.forwardL] at h
  rcases hl : forwardLoop ex d (oldState.getD ⟨[], []⟩) ex.execution_order true
      ⟨[], []⟩ with e | r
  · rw [hl] at h
    simp at h
  · obtain ⟨s', log⟩ := r
    rw [hl] at h
    simp only [ebind_ok] at h
    rcases ho : outputSelect ex s' log with e | tr
    · rw [ho] at h
      simp at h
    · rw [ho] at h
      simp only [ebind_ok, Except.ok.injEq, Prod.mk.injEq] at h
      obtain ⟨h1, h2⟩ := h
      obtain ⟨hs, hlog, -⟩ := outputSelect_inv ex s' log tr ho
      obtain ⟨vv, s2, log2⟩ := tr
      simp only at h1 h2 hs hlog
      have hss : s = s' := by rw [← h2, hs]
      rw [← hlog, hs] at ho
      refine ⟨log, ?_, ?_⟩
      · rw [hss]
      · rw [hss, ← h1, ← hlog]
        exact ho

theorem forwardL_ok_inv (ex : GraphExecutor) (d : V)
    (oldState : Option GraphExecutorState) (o : V) (s : GraphExecutorState)
    (log : List (String × Option V × List V))
    (h : ex.forwardL d oldState = .ok (o, s, log)) :
    forwardLoop ex d (oldState.getD ⟨[], []⟩) ex.execution_order true
      ⟨[], []⟩ = .ok (s, log) := by
  simp only [GraphExecutor.forwardL] at h
  rcases hl : forwardLoop ex d (oldState.getD ⟨[], []⟩) ex.execution_order true
      ⟨[], []⟩ with e | r
  · rw [hl] at h
    simp at h
  · obtain ⟨s', log'⟩ := r
    rw [hl] at h
    simp only [ebind_ok] at h
    obtain ⟨hs, hlog, -⟩ := outputSelect_inv ex s' log' (o, s, log) h
    simp only at hs hlog
    rw [hs, hlog]

theorem forward_from_parts (ex : GraphExecutor) (d : V)
    (oldState : Option GraphExecutorState) (s : GraphExecutorState)
    (log : List (String × Option V × List V))
    (tr : V × GraphExecutorState × List (String × Option V × List V))
    (hl : forwardLoop ex d (oldState.getD ⟨[], []⟩) ex.execution_order true
      ⟨[], []⟩ = .ok (s, log))
    (ho : outputSelect ex s log = .ok tr) :
    ex.forward d oldState = .ok (tr.1, tr.2.1) := by
  simp only [GraphExecutor.forward, GraphExecutor.forwardL, hl, ebind_ok, ho]

theorem forward_loop_error (ex : GraphExecutor) (d : V)
    (oldState : Option GraphExecutorState) (e : PyErr)
    (hl : forwardLoop ex d (oldState.getD ⟨[], []⟩) ex.execution_order true
      ⟨[], []⟩ = .error e) :
    ex.forward d oldState = .error e := by
  simp only [GraphExecutor.forward, GraphExecutor.forwardL, hl, ebind_error]

theorem forward_select_error (ex : GraphExecutor) (d : V)
    (oldState : Option GraphExecutorState) (s : GraphExecutorState)
    (log : List (String × Option V × List V)) (e : PyErr)
    (hl : forwardLoop ex d (oldState.getD ⟨[], []⟩) ex.execution_order true
      ⟨[], []⟩ = .ok (s, log))
    (ho : outputSelect ex s log = .error e) :
    ex.forward d oldState = .error e := by
  simp only [GraphExecutor.forward, GraphExecutor.forwardL, hl, ebind_ok, ho,
    ebind_error]

/-! ### Claims -/

/-- C2: at the end of every forward pass, the returned output is the
current pass's cache entry for the last node of the execution order; if
that node has no cache entry, the output is instead the cache entry of the
second-to-last node in the execution order, and this substitution is
silent — the call still succeeds, no error is reported. -/
theorem claim_C2 :
    (∀ (ex : GraphExecutor) (d : V) (old? : Option GraphExecutorState)
        (o : V) (s : GraphExecutorState),
      ex.forward d old? = .ok (o, s) →
      ∀ last, ex.execution_order.getLast? = some last →
        (lookupA s.cache last.name = some o ∨
          (lookupA s.cache last.name = none ∧ 2 ≤ ex.execution_order.length ∧
            ∃ n2, ex.execution_order[ex.execution_order.length - 2]? = some n2 ∧
              lookupA s.cache n2.name = some o))) ∧
    (∀ (ex : GraphExecutor) (d : V) (old? : Option GraphExecutorState)
        (s : GraphExecutorState) (log : List (String × Option V × List V))
        (last n2 : Node) (v : V),
      forwardLoop ex d (old?.getD ⟨[], []⟩) ex.execution_order true ⟨[], []⟩ =
        .ok (s, log) →
      ex.execution_order.getLast? = some last →
      lookupA s.cache last.name = none →
      2 ≤ ex.execution_order.length →
      ex.execution_order[ex.execution_order.length - 2]? = some n2 →
      lookupA s.cache n2.name = some v →
      ex.forward d old? = .ok (v, s)) := by
  constructor
  · intro ex d old? o s h last hlast
    obtain ⟨log, hl, ho⟩ := forward_ok_inv ex d old? o s h
    obtain ⟨-, -, last', hlast', hdisj⟩ := outputSelect_inv ex s log (o, s, log) ho
    rw [hlast] at hlast'
    injection hlast' with he
    rw [he]
    exact hdisj
  · intro ex d old? s log last n2 v hl hlast hnone hlen hn2 hv
    have ho := outputSelect_fallback ex s log last n2 v hlast hnone hlen hn2 hv
    exact forward_from_parts ex d old? s log (v, s, log) hl ho

/-- C2 witness: on the executor `ex2c` (last node unmapped) the fallback
fires and silently returns the first node's cached value. -/
theorem claim_C2_witness :
    lookupA (⟨[], [("a", V.tensor [5])]⟩ : GraphExecutorState).cache "a" =
      some (V.tensor [5]) ∧
    ex2c.forward (V.tensor [5]) none =
      .ok (V.tensor [5], (⟨[], [("a", V.tensor [5])]⟩ : GraphExecutorState)) := by
  constructor
  · have h := claim_C2.1 ex2c (V.tensor [5]) none (V.tensor [5])
      ⟨[], [("a", V.tensor [5])]⟩ (by decide) ⟨"b", none⟩ rfl
    rcases h with h1 | ⟨-, -, n2, hn2, hv⟩
    · exact absurd h1 (by decide)
    · have hcomp : ex2c.execution_order[ex2c.execution_order.length - 2]? =
          some (⟨"a", some identityMod⟩ : Node) := rfl
      rw [hcomp] at hn2
      rw [← Option.some.inj hn2] at hv
      exact hv
  · exact claim_C2.2 ex2c (V.tensor [5]) none ⟨[], [("a", V.tensor [5])]⟩
      [("a", some (V.tensor [5]), [V.tensor [5]])] ⟨"b", none⟩
      ⟨"a", some identityMod⟩ (V.tensor [5]) (by decide) rfl (by decide)
      (by decide) rfl (by decide)

/-- C10: the output-node fallback is unguarded — when the last node of the
execution order has no cache entry, an order of fewer than two nodes makes
forward raise an unreported `IndexError` (the `[-2]` access), and a
second-to-last node that also has no cache entry makes it raise an
unreported `KeyError` (the cache access); no output and no reported
`ValueError` result. -/
theorem claim_C10 :
    (∀ (ex : GraphExecutor) (d : V) (old? : Option GraphExecutorState)
        (n : Node),
      ex.execution_order = [n] → n.elem = none →
      ex.forward d old? = .error .indexError) ∧
    (∀ (ex : GraphExecutor) (d : V) (old? : Option GraphExecutorState)
        (s : GraphExecutorState) (log : List (String × Option V × List V))
        (last n2 : Node),
      forwardLoop ex d (old?.getD ⟨[], []⟩) ex.execution_order true ⟨[], []⟩ =
        .ok (s, log) →
      ex.execution_order.getLast? = some last →
      lookupA s.cache last.name = none →
      2 ≤ ex.execution_order.length →
      ex.execution_order[ex.execution_order.length - 2]? = some n2 →
      lookupA s.cache n2.name = none →
      ex.forward d old? = .error .keyError) := by
  constructor
  · intro ex d old? n horder hne
    have hl : forwardLoop ex d (old?.getD ⟨[], []⟩) ex.execution_order true
        ⟨[], []⟩ = .ok (⟨[], []⟩, []) := by
      rw [horder]
      simp [forwardLoop, hne]
    have ho : outputSelect ex (⟨[], []⟩ : GraphExecutorState) [] =
        .error .indexError := by
      refine outputSelect_short ex ⟨[], []⟩ [] n ?_ rfl ?_
      · rw [horder]
        rfl
      · rw [horder]
        simp
    exact forward_select_error ex d old? ⟨[], []⟩ [] .indexError hl ho
  · intro ex d old? s log last n2 hl hlast hnone hlen hn2 hnone2
    have ho := outputSelect_keyError ex s log last n2 hlast hnone hlen hn2 hnone2
    exact forward_select_error ex d old? s log .keyError hl ho

/-- C10 witness: a single unmapped node raises `IndexError`; two chained
unmapped nodes raise `KeyError`. -/
theorem claim_C10_witness :
    ex10a.forward (V.tensor [1]) none = .error .indexError ∧
    ex10b.forward (V.tensor [1]) none = .error .keyError := by
  constructor
  · exact claim_C10.1 ex10a (V.tensor [1]) none ⟨"x", none⟩ rfl rfl
  · exact claim_C10.2 ex10b (V.tensor [1]) none ⟨[], []⟩ []
      ⟨"y", none⟩ ⟨"x", none⟩ rfl rfl rfl (by decide) rfl rfl

/-- C4: constructing an executor fails with a reported error whenever the
graph declares a number of input nodes other than one; a successful
construction never carries an empty execution order; and extraction fails
with a reported error when the trace yields a number of roots different
from one. -/
theorem claim_C4 :
    (∀ g : Graph, g.inputs.length ≠ 1 →
      mkExecutor g = .error (.valueError
        ("Currently, only one input is supported, but " ++
          toString g.inputs.length ++ " was given"))) ∧
    (∀ (g : Graph) (ex : GraphExecutor), mkExecutor g = .ok ex →
      ex.execution_order ≠ []) ∧
    (∀ (tg : TorchGraph) (mmap : Nat → NirNode) (shape idims : List Nat),
      tg.getRoot.length ≠ 1 →
      extract_nir_graph tg mmap shape idims = .error (.valueError
        ("Currently, only one input is supported, but " ++
          toString tg.getRoot.length ++ " was given"))) := by
  refine ⟨?_, ?_, ?_⟩
  · intro g h
    simp only [mkExecutor, if_pos h]
  · intro g ex h
    simp only [mkExecutor] at h
    by_cases h1 : g.inputs.length ≠ 1
    · rw [if_pos h1] at h
      simp at h
    · rw [if_neg h1] at h
      rcases hh : g.inputs.head? with - | nm
      · rw [hh] at h
        simp at h
      · rw [hh] at h
        simp only [oelim_some] at h
        rcases hf : findNode g nm with - | start
        · rw [hf] at h
          simp at h
        · rw [hf] at h
          simp only [oelim_some] at h
          rcases he : (traceExecution g start).isEmpty with - | -
          · rw [he] at h
            simp only [Bool.cond_false] at h
            injection h with h
            rw [← h]
            simp only []
            intro hcon
            rw [hcon] at he
            simp at he
          · rw [he] at h
            simp only [Bool.cond_true] at h
            simp at h
  · intro tg mmap shape idims h
    simp only [extract_nir_graph, if_pos h]

/-- C4 witness: the empty graph (zero inputs) is rejected, a successfully
constructed executor has a nonempty order, and a rootless trace is
rejected by extraction. -/
theorem claim_C4_witness :
    mkExecutor (⟨[], [], []⟩ : Graph) = .error (.valueError
      ("Currently, only one input is supported, but " ++ toString (0 : Nat) ++
        " was given")) ∧
    ex2c.execution_order ≠ [] ∧
    extract_nir_graph ⟨[], fun _ => []⟩ (fun i => .leaf i) [1] [] =
      .error (.valueError ("Currently, only one input is supported, but " ++
        toString (0 : Nat) ++ " was given")) := by
  refine ⟨?_, ?_, ?_⟩
  · exact claim_C4.1 ⟨[], [], []⟩ (by decide)
  · exact claim_C4.2.1 g2c ex2c rfl
  · exact claim_C4.2.2 ⟨[], fun _ => []⟩ (fun i => .leaf i) [1] [] (by decide)

theorem edgeResolve_ok (tnodes : List (String × Option Module)) :
    ∀ (l es : List (String × String)), edgeResolve tnodes l = .ok es →
      es = l.map (fun e => (rewriteSrc tnodes e.1, rewriteDst tnodes e.2)) := by
  intro l
  induction l with
  | nil =>
    intro es h
    simp only [edgeResolve, Except.ok.injEq] at h
    rw [← h]
    rfl
  | cons e rest ih =>
    intro es h
    obtain ⟨s, dd⟩ := e
    simp only [edgeResolve] at h
    rcases hc : containsA tnodes (rewriteSrc tnodes s) &&
        containsA tnodes (rewriteDst tnodes dd) with - | -
    · rw [hc] at h
      simp at h
    · rw [hc] at h
      simp only [Bool.cond_true] at h
      rcases hr : edgeResolve tnodes rest with er | es'
      · rw [hr] at h
        simp at h
      · rw [hr] at h
        simp only [ebind_ok, Except.ok.injEq] at h
        rw [← h, ih es' hr]
        rfl

/-- C8: during IR-to-Graph reconstruction, an edge source endpoint that
names no node but whose `endpoint.output` does is rewritten to
`endpoint.output`; symmetrically a destination endpoint is rewritten to
`endpoint.input`; all other edges keep their endpoints unchanged, and the
built graph's edge list is exactly the rewritten IR edge list. -/
theorem claim_C8 :
    (∀ (tnodes : List (String × Option Module)) (s : String),
      containsA tnodes s = false → containsA tnodes (s ++ ".output") = true →
      rewriteSrc tnodes s = s ++ ".output") ∧
    (∀ (tnodes : List (String × Option Module)) (s : String),
      containsA tnodes s = true → rewriteSrc tnodes s = s) ∧
    (∀ (tnodes : List (String × Option Module)) (s : String),
      containsA tnodes s = false → containsA tnodes (s ++ ".output") = false →
      rewriteSrc tnodes s = s) ∧
    (∀ (tnodes : List (String × Option Module)) (dd : String),
      containsA tnodes dd = false → containsA tnodes (dd ++ ".input") = true →
      rewriteDst tnodes dd = dd ++ ".input") ∧
    (∀ (tnodes : List (String × Option Module)) (dd : String),
      containsA tnodes dd = true → rewriteDst tnodes dd = dd) ∧
    (∀ (tnodes : List (String × Option Module)) (dd : String),
      containsA tnodes dd = false → containsA tnodes (dd ++ ".input") = false →
      rewriteDst tnodes dd = dd) ∧
    (∀ (tnodes : List (String × Option Module))
        (tedges : List (String × String)) (nirNodes : List (String × NirNode))
        (g : Graph),
      modNirToGraph tnodes tedges nirNodes = .ok g →
      g.edges = tedges.map (fun e =>
        (rewriteSrc tnodes e.1, rewriteDst tnodes e.2))) := by
  refine ⟨?_, ?_, ?_, ?_, ?_, ?_, ?_⟩
  · intro tnodes s h1 h2
    simp [rewriteSrc, h1, h2]
  · intro tnodes s h1
    simp [rewriteSrc, h1]
  · intro tnodes s h1 h2
    simp [rewriteSrc, h1, h2]
  · intro tnodes dd h1 h2
    simp [rewriteDst, h1, h2]
  · intro tnodes dd h1
    simp [rewriteDst, h1]
  · intro tnodes dd h1 h2
    simp [rewriteDst, h1, h2]
  · intro tnodes tedges nirNodes g h
    simp only [modNirToGraph] at h
    rcases hr : edgeResolve tnodes tedges with er | es
    · rw [hr] at h
      simp at h
    · rw [hr] at h
      simp only [ebind_ok, Except.ok.injEq] at h
      rw [← h]
      exact edgeResolve_ok tnodes tedges es hr

/-- C8 witness: the edge `("sub", "n2")` resolves to `("sub.output", "n2")`
while `("x", "n2")` is kept unchanged. -/
theorem claim_C8_witness :
    rewriteSrc tn8 "sub" = "sub" ++ ".output" ∧
    rewriteSrc tn8 "x" = "x" ∧
    rewriteDst tn8 "n2" = "n2" ∧
    g8res.edges = tedges8.map (fun e =>
      (rewriteSrc tn8 e.1, rewriteDst tn8 e.2)) ∧
    g8res.edges = [("sub.output", "n2"), ("x", "n2")] := by
  refine ⟨?_, ?_, ?_, ?_, ?_⟩
  · exact claim_C8.1 tn8 "sub" (by decide) (by decide)
  · exact claim_C8.2.1 tn8 "x" (by decide)
  · exact claim_C8.2.2.2.2.1 tn8 "n2" (by decide)
  · exact claim_C8.2.2.2.2.2.2 tn8 tedges8 nir8 g8res rfl
  · have h := claim_C8.2.2.2.2.2.2 tn8 tedges8 nir8 g8res rfl
    rw [h]
    decide

theorem gatherInputs_empty (inputNodes : List Node)
    (newS oldS : GraphExecutorState)
    (h : ∀ p ∈ inputNodes, containsA newS.cache p.name = false ∧
      containsA oldS.cache p.name = false) :
    gatherInputs inputNodes newS oldS none = [] := by
  simp only [gatherInputs, oelim_none, List.nil_append]
  rw [List.filterMap_eq_nil_iff]
  intro p hp
  obtain ⟨h1, h2⟩ := h p hp
  simp [h1, h2]

/-- C5: a node given no primary input, none of whose source nodes has a
value in the current or the previous pass's cache, makes `_apply_module`
raise the reported fatal error naming the node (the source message is
"No inputs found for node X"); the walk and `forward` propagate such an
error, so no partial result is returned. -/
theorem claim_C5 :
    (∀ (sm : List (String × Bool)) (node : Node) (inputNodes : List Node)
        (newS oldS : GraphExecutorState),
      (∀ p ∈ inputNodes, containsA newS.cache p.name = false ∧
        containsA oldS.cache p.name = false) →
      applyModule sm node inputNodes newS oldS none =
        .error (.valueError ("No inputs found for node " ++ node.name))) ∧
    (∀ (ex : GraphExecutor) (d : V) (oldS : GraphExecutorState) (n : Node)
        (rest : List Node) (fst : Bool) (newS : GraphExecutorState) (e : PyErr)
        (m : Module), n.elem = some m →
      applyModule ex.stateful_modules n (findSourceNodesOf ex.graph n) newS oldS
        (bif fst then some d else none) = .error e →
      forwardLoop ex d oldS (n :: rest) fst newS = .error e) ∧
    (∀ (ex : GraphExecutor) (d : V) (old? : Option GraphExecutorState)
        (e : PyErr),
      forwardLoop ex d (old?.getD ⟨[], []⟩) ex.execution_order true ⟨[], []⟩ =
        .error e →
      ex.forward d old? = .error e) := by
  refine ⟨?_, ?_, ?_⟩
  · intro sm node inputNodes newS oldS h
    rw [applyModule, gatherInputs_empty inputNodes newS oldS h]
    simp only [combineInputs, ebind_error]
  · intro ex d oldS n rest fst newS e m hne hap
    simp only [forwardLoop, hne, oelim_some, hap, ebind_error]
  · intro ex d old? e h
    exact forward_loop_error ex d old? e h

/-- C5 witness: node `c` of `ex5c` (its only source is the unmapped node
`b`) aborts the pass with the reported error naming it. -/
theorem claim_C5_witness :
    applyModule [] ⟨"z", some identityMod⟩ [⟨"w", none⟩] ⟨[], []⟩ ⟨[], []⟩
        none = .error (.valueError "No inputs found for node z") ∧
    forwardLoop ex5c (V.tensor [1]) ⟨[], []⟩ [⟨"c", some identityMod⟩] false
        ⟨[], [("a", V.tensor [1])]⟩ =
      .error (.valueError "No inputs found for node c") ∧
    ex5c.forward (V.tensor [1]) none =
      .error (.valueError "No inputs found for node c") := by
  refine ⟨?_, ?_, ?_⟩
  · exact claim_C5.1 [] ⟨"z", some identityMod⟩ [⟨"w", none⟩] ⟨[], []⟩ ⟨[], []⟩
      (by decide)
  · exact claim_C5.2.1 ex5c (V.tensor [1]) ⟨[], []⟩ ⟨"c", some identityMod⟩ []
      false ⟨[], [("a", V.tensor [1])]⟩ _ identityMod rfl (by decide)
  · exact claim_C5.2.2 ex5c (V.tensor [1]) none _ (by decide)

theorem zipAdd_getD (t : List Int) : ∀ (u : List Int) (i : Nat),
    i < t.length → u.length = t.length →
    (List.zipWith (fun a b => a + b) t u).getD i 0 =
      t.getD i 0 + u.getD i 0 := by
  induction t with
  | nil =>
    intro u i ht hu
    simp at ht
  | cons a as ih =>
    intro u i ht hu
    cases u with
    | nil => simp at hu
    | cons b bs =>
      cases i with
      | zero => simp
      | succ j =>
        simp only [List.zipWith_cons_cons, List.getD_cons_succ]
        exact ih bs j (by simpa using ht) (by simpa using hu)

theorem foldSum_getD (ts : List (List Int)) : ∀ (t : List Int) (i : Nat),
    (∀ u ∈ ts, u.length = t.length) → i < t.length →
    (ts.foldl (fun acc u => List.zipWith (fun a b => a + b) acc u) t).getD i 0 =
      t.getD i 0 + (ts.map (fun u => u.getD i 0)).sum := by
  induction ts with
  | nil =>
    intro t i h hi
    simp
  | cons u us ih =>
    intro t i h hi
    simp only [List.foldl_cons, List.map_cons, List.sum_cons]
    have hlen : (List.zipWith (fun a b => a + b) t u).length = t.length := by
      rw [List.length_zipWith, h u (List.mem_cons_self u us), Nat.min_self]
    have key := ih (List.zipWith (fun a b => a + b) t u) i
      (fun w hw => by rw [hlen]; exact h w (List.mem_cons_of_mem u hw))
      (by rw [hlen]; exact hi)
    rw [key, zipAdd_getD t u i hi (h u (List.mem_cons_self u us))]
    omega

theorem combineInputs_tensors (nm : String) (t : List Int)
    (ts : List (List Int)) (hne : ts ≠ [])
    (h : ∀ u ∈ ts, u.length = t.length) :
    combineInputs nm (.tensor t :: ts.map V.tensor) =
      .ok (.tensor (ts.foldl (fun acc u =>
        List.zipWith (fun a b => a + b) acc u) t)) := by
  cases ts with
  | nil => exact absurd rfl hne
  | cons u us =>
    show stackSum (.tensor t :: .tensor u :: us.map V.tensor) = _
    simp only [stackSum]
    have hall : (V.tensor u :: us.map V.tensor).all (fun w =>
        match w with
        | .tensor y => y.length == t.length
        | .tup _ => false) = true := by
      rw [List.all_eq_true]
      intro w hw
      rcases List.mem_cons.mp hw with h1 | h2
      · rw [h1]
        simp [h u (List.mem_cons_self u us)]
      · obtain ⟨y, hy, hyw⟩ := List.mem_map.mp h2
        rw [← hyw]
        simp [h y (List.mem_cons_of_mem u hy)]
    rw [hall]
    simp only [Bool.cond_true, Except.ok.injEq, V.tensor.injEq]
    rw [show (V.tensor u :: us.map V.tensor) = (u :: us).map V.tensor from rfl,
      List.foldl_map]

/-- C3: when more than one contributing input value is gathered they are
combined by elementwise summation before the unit is invoked (entry `i` of
the combined tensor is the sum of the entries `i` of all gathered tensors,
e.g. `[1,2]` and `[3,4]` give `[4,6]`); a single gathered value is used
directly, unsummed; and the value `_apply_module` passes to the unit as
its first argument is exactly the combination of the gathered inputs. -/
theorem claim_C3 :
    (∀ (nm : String) (v : V), combineInputs nm [v] = .ok v) ∧
    (∀ (nm : String) (t : List Int) (ts : List (List Int)), ts ≠ [] →
      (∀ u ∈ ts, u.length = t.length) →
      combineInputs nm (.tensor t :: ts.map V.tensor) =
        .ok (.tensor (ts.foldl (fun acc u =>
          List.zipWith (fun a b => a + b) acc u) t)) ∧
      ∀ i, i < t.length →
        (ts.foldl (fun acc u =>
          List.zipWith (fun a b => a + b) acc u) t).getD i 0 =
          t.getD i 0 + (ts.map (fun u => u.getD i 0)).sum) ∧
    (∀ (sm : List (String × Bool)) (node : Node) (inputNodes : List Node)
        (newS oldS : GraphExecutorState) (data : Option V) (o : V)
        (st : GraphExecutorState) (args : List V),
      applyModule sm node inputNodes newS oldS data = .ok (o, st, args) →
      ∃ x, combineInputs node.name (gatherInputs inputNodes newS oldS data) =
        .ok x ∧ args.head? = some x) ∧
    combineInputs "n" [.tensor [1, 2], .tensor [3, 4]] = .ok (.tensor [4, 6]) := by
  refine ⟨?_, ?_, ?_, ?_⟩
  · intro nm v
    rfl
  · intro nm t ts hne h
    exact ⟨combineInputs_tensors nm t ts hne h,
      fun i hi => foldSum_getD ts t i h hi⟩
  · intro sm node inputNodes newS oldS data o st args h
    obtain ⟨x, hx, hargs⟩ := applyModule_ok_args sm node inputNodes newS oldS
      data o st args h
    refine ⟨x, hx, ?_⟩
    rw [hargs]
    rfl
  · decide

/-- C3 witness: singletons pass through unsummed, `[1,2] + [3,4] = [4,6]`
with entry 0 equal to `1 + 3`, and a concrete `_apply_module` call hands
the unit the combined input as its first argument. -/
theorem claim_C3_witness :
    combineInputs "k" [.tensor [9]] = .ok (.tensor [9]) ∧
    combineInputs "k" (.tensor [1, 2] :: ([[3, 4]] : List (List Int)).map
      V.tensor) =
      .ok (.tensor (([[3, 4]] : List (List Int)).foldl (fun acc u =>
        List.zipWith (fun a b => a + b) acc u) [1, 2])) ∧
    (([[3, 4]] : List (List Int)).foldl (fun acc u =>
      List.zipWith (fun a b => a + b) acc u) [1, 2]).getD 0 0 =
      ([1, 2] : List Int).getD 0 0 +
        (([[3, 4]] : List (List Int)).map (fun u => u.getD 0 0)).sum ∧
    [V.tensor [7]].head? = some (V.tensor [7]) := by
  refine ⟨claim_C3.1 "k" (.tensor [9]), ?_, ?_, ?_⟩
  · exact (claim_C3.2.1 "k" [1, 2] [[3, 4]] (by decide) (by decide)).1
  · exact (claim_C3.2.1 "k" [1, 2] [[3, 4]] (by decide) (by decide)).2 0
      (by decide)
  · obtain ⟨x, hx, hh⟩ := claim_C3.2.2.1 exC1.stateful_modules
      ⟨"a", some concatMod⟩ [] ⟨[], []⟩ ⟨[], []⟩ (some (V.tensor [7]))
      (V.tensor [7]) ⟨[("a", V.tup [[99]])], []⟩ [V.tensor [7]] (by decide)
    have hcomb : combineInputs "a" (gatherInputs [] ⟨[], []⟩ ⟨[], []⟩
        (some (V.tensor [7]))) = .ok (V.tensor [7]) := by decide
    rw [hcomb] at hx
    rw [← Except.ok.inj hx] at hh
    exact hh

/-- C7 (counterexample to the claim as stated): in `ex7c` the very first
node of the execution order is `a` (no mapped unit), yet the invocation
record of the pass shows that the unit of node `b` — not the very first
node — received the primary external input as its data argument. -/
theorem claim_C7_counterexample :
    mkExecutor g7c = .ok ex7c ∧
    ex7c.execution_order.map Node.name = ["a", "b"] ∧
    ex7c.execution_order.head?.map Node.name = some "a" ∧
    ex7c.forwardL (V.tensor [7]) none =
      .ok (V.tensor [7], ⟨[], [("b", V.tensor [7])]⟩,
        [("b", some (V.tensor [7]), [V.tensor [7]])]) ∧
    "b" ≠ "a" := by
  refine ⟨rfl, by decide, by decide, by decide, by decide⟩

/-- C7 (amended): within one forward pass the primary external input is
supplied as a data input only to the first node of the execution order
that has a mapped unit (when the very first node is unmapped it is skipped
without consuming the input); every entry of the invocation record names a
mapped node of the order, and every unit invocation after the first one
receives no external data argument — its inputs are gathered from the
caches alone. -/
theorem claim_C7_amended :
    ∀ (ex : GraphExecutor) (d : V) (old? : Option GraphExecutorState)
      (o : V) (s : GraphExecutorState)
      (log : List (String × Option V × List V)),
      ex.forwardL d old? = .ok (o, s, log) →
      (∀ e ∈ log, ∃ n, n ∈ ex.execution_order ∧ n.name = e.1 ∧
        n.elem.isSome = true) ∧
      (∀ hd, log.head? = some hd → hd.2.1 = some d ∧
        ∃ n, ex.execution_order.find? (fun q => q.elem.isSome) = some n ∧
          n.name = hd.1) ∧
      (∀ e ∈ log.drop 1, e.2.1 = none) := by
  intro ex d old? o s log h
  have hl := forwardL_ok_inv ex d old? o s log h
  refine ⟨?_, ?_, ?_⟩
  · intro e he
    obtain ⟨n, hn, h1, h2, -⟩ := forwardLoop_log_entries ex d
      (old?.getD ⟨[], []⟩) ex.execution_order true ⟨[], []⟩ s log hl e he
    exact ⟨n, hn, h1, h2⟩
  · intro hd hhd
    obtain ⟨h1, n, h2, h3⟩ := forwardLoop_log_head ex d (old?.getD ⟨[], []⟩)
      ex.execution_order true ⟨[], []⟩ s log hl hd hhd
    exact ⟨h1, n, h2, h3⟩
  · exact forwardLoop_log_tail_none ex d (old?.getD ⟨[], []⟩)
      ex.execution_order true ⟨[], []⟩ s log hl

/-- C7 witness: on `ex7c` the amended routing facts give concretely that
the unit receiving the data is the first MAPPED node, `b`. -/
theorem claim_C7_witness :
    (ex7c.execution_order.find? (fun q => q.elem.isSome)).map Node.name =
      some "b" ∧
    ex7c.execution_order.any (fun q => q.name == "b" && q.elem.isSome) =
      true := by
  obtain ⟨h1, h2, -⟩ := claim_C7_amended ex7c (V.tensor [7]) none (V.tensor [7])
    ⟨[], [("b", V.tensor [7])]⟩ [("b", some (V.tensor [7]), [V.tensor [7]])]
    (by decide)
  constructor
  · obtain ⟨-, n, hfind, hname⟩ :=
      h2 ("b", some (V.tensor [7]), [V.tensor [7]]) rfl
    rw [hfind]
    simp [hname]
  · obtain ⟨n, hmem, hname, hsome⟩ :=
      h1 ("b", some (V.tensor [7]), [V.tensor [7]])
        (List.mem_singleton.mpr rfl)
    rw [List.any_eq_true]
    exact ⟨n, hmem, by simp [hname, hsome]⟩

/-- C1 (counterexample to the claim as stated): for the stateful node `a`
of `exC1`, threading the first call's state into the second call makes the
unit receive its hidden values as TRAILING arguments after the data input
(`[data, hidden]`), not as leading arguments before it: the recorded
argument list of call 2 is `[[7], [99]]`, while the claim's leading-order
reading — realised by `applyModuleSpecLeading`, which follows the
specification's words — would invoke the unit on `[[99], [7]]` and produce
the observably different output `[99, 7]` instead of `[7, 99]`. -/
theorem claim_C1_counterexample :
    mkExecutor gC1 = .ok exC1 ∧
    lookupA exC1.stateful_modules "a" = some true ∧
    exC1.forwardL (V.tensor [7]) none =
      .ok (V.tensor [7], exC1s1, [("a", some (V.tensor [7]), [V.tensor [7]])]) ∧
    exC1.forwardL (V.tensor [7]) (some exC1s1) =
      .ok (V.tensor [7, 99],
        ⟨[("a", V.tup [[99]])], [("a", V.tensor [7, 99])]⟩,
        [("a", some (V.tensor [7]), [V.tensor [7], V.tensor [99]])]) ∧
    iterElems (sliceFrom1 (concatMod.run [V.tensor [7]])) = [V.tensor [99]] ∧
    [V.tensor [7], V.tensor [99]] ≠ [V.tensor [99]] ++ [V.tensor [7]] ∧
    applyModuleSpecLeading exC1.stateful_modules ⟨"a", some concatMod⟩ []
        ⟨[], []⟩ exC1s1 (some (V.tensor [7])) =
      .ok (V.tensor [99, 7], ⟨[("a", V.tup [[99]])], []⟩,
        [V.tensor [99], V.tensor [7]]) ∧
    V.tensor [7, 99] ≠ V.tensor [99, 7] := by
  refine ⟨rfl, by decide, by decide, by decide, by decide, by decide,
    by decide, by decide⟩

/-- C1 (amended): for every stateful node (snnTorch `RSynaptic` special
case excluded), when the caller threads the returned state of call k into
call k+1, the unit's compute call on call k+1 receives exactly the hidden
values it returned on call k — as its TRAILING positional arguments,
appended after the combined data input, which stays the first argument;
omitting the state argument behaves exactly as passing a fresh empty
state. -/
theorem claim_C1_amended :
    (∀ (ex : GraphExecutor) (d : V),
      ex.forwardL d none = ex.forwardL d (some ⟨[], []⟩)) ∧
    (∀ (ex : GraphExecutor) (d1 d2 : V) (old0 : Option GraphExecutorState)
        (o1 o2 : V) (s1 s2 : GraphExecutorState)
        (log1 log2 : List (String × Option V × List V)),
      (ex.execution_order.map Node.name).Nodup →
      ex.forwardL d1 old0 = .ok (o1, s1, log1) →
      ex.forwardL d2 (some s1) = .ok (o2, s2, log2) →
      ∀ (n : Node) (m : Module), n ∈ ex.execution_order → n.elem = some m →
        lookupA ex.stateful_modules n.name = some true →
        (isRSynapticMod m && ! m.init_hidden) = false →
        ∀ d01 args1, (n.name, d01, args1) ∈ log1 →
        ∀ d02 args2, (n.name, d02, args2) ∈ log2 →
          args2.drop 1 = iterElems (sliceFrom1 (m.run args1)) ∧
          ∃ x, args2 = x :: iterElems (sliceFrom1 (m.run args1))) := by
  constructor
  · intro ex d
    rfl
  · intro ex d1 d2 old0 o1 o2 s1 s2 log1 log2 hnd h1 h2 n m hn helem hsm hrs
      d01 args1 hm1 d02 args2 hm2
    have hl1 := forwardL_ok_inv ex d1 old0 o1 s1 log1 h1
    have hl2 := forwardL_ok_inv ex d2 (some s1) o2 s2 log2 h2
    have hstored := forwardLoop_state_final ex d1 (old0.getD ⟨[], []⟩)
      ex.execution_order true ⟨[], []⟩ s1 log1 hnd hl1 n.name d01 args1 hm1
      n m hn rfl helem hsm hrs
    obtain ⟨q, -, -, -, x, hargs2⟩ := forwardLoop_log_entries ex d2 s1
      ex.execution_order true ⟨[], []⟩ s2 log2 hl2 (n.name, d02, args2) hm2
    simp only at hargs2
    have hhid : hiddenFor ex.stateful_modules s1.state n.name =
        iterElems (sliceFrom1 (m.run args1)) := by
      simp [hiddenFor, hsm, hstored]
    rw [hhid] at hargs2
    rw [hargs2]
    exact ⟨rfl, x, rfl⟩

/-- C1 witness: the trailing-argument fact instantiated on `exC1`: call 2
receives `[99]` — the hidden value returned by call 1 — after the data,
and omitting the state argument equals passing a fresh empty state. -/
theorem claim_C1_witness :
    exC1.forwardL (V.tensor [7]) none = exC1.forwardL (V.tensor [7])
      (some ⟨[], []⟩) ∧
    [V.tensor [7], V.tensor [99]].drop 1 =
      iterElems (sliceFrom1 (concatMod.run [V.tensor [7]])) := by
  constructor
  · exact claim_C1_amended.1 exC1 (V.tensor [7])
  · exact (claim_C1_amended.2 exC1 (V.tensor [7]) (V.tensor [7]) none
      (V.tensor [7]) (V.tensor [7, 99]) exC1s1
      ⟨[("a", V.tup [[99]])], [("a", V.tensor [7, 99])]⟩
      [("a", some (V.tensor [7]), [V.tensor [7]])]
      [("a", some (V.tensor [7]), [V.tensor [7], V.tensor [99]])]
      (by decide) (by decide) (by decide) ⟨"a", some concatMod⟩ concatMod
      (by exact List.Mem.head []) rfl (by decide) (by decide)
      (some (V.tensor [7])) [V.tensor [7]] (by decide)
      (some (V.tensor [7])) [V.tensor [7], V.tensor [99]] (by decide)).1

theorem sinkPhase_edges_suffix (tg : TorchGraph) (idims : List Nat) :
    ∀ (l : List TorchNode) (nodes : List (String × NirNode))
      (edges : List (String × String)),
      ∃ tl, (sinkPhase tg idims l nodes edges).2 = edges ++ tl := by
  intro l
  induction l with
  | nil =>
    intro nodes edges
    exact ⟨[], by simp [sinkPhase]⟩
  | cons n rest ih =>
    intro nodes edges
    simp only [sinkPhase]
    by_cases hs : n.outgoing.length = 0
    · rw [if_pos hs]
      obtain ⟨tl, htl⟩ := ih (insertA nodes "output" (.output (outShapeOf tg idims n)))
        ((edges ++ n.outgoing.map (fun dd => (n.name, dd))) ++ [(n.name, "output")])
      exact ⟨n.outgoing.map (fun dd => (n.name, dd)) ++ [(n.name, "output")] ++ tl,
        by rw [htl]; simp⟩
    · rw [if_neg hs]
      obtain ⟨tl, htl⟩ := ih nodes (edges ++ n.outgoing.map (fun dd => (n.name, dd)))
      exact ⟨n.outgoing.map (fun dd => (n.name, dd)) ++ tl,
        by rw [htl]; simp⟩

theorem sinkPhase_edge_mem (tg : TorchGraph) (idims : List Nat) :
    ∀ (l : List TorchNode) (nodes : List (String × NirNode))
      (edges : List (String × String)) (n : TorchNode),
      n ∈ l → n.outgoing = [] →
      (n.name, "output") ∈ (sinkPhase tg idims l nodes edges).2 := by
  intro l
  induction l with
  | nil =>
    intro nodes edges n hn
    cases hn
  | cons n0 rest ih =>
    intro nodes edges n hn hout
    simp only [sinkPhase]
    rcases List.mem_cons.mp hn with h1 | h2
    · subst h1
      rw [if_pos (by rw [hout]; rfl)]
      obtain ⟨tl, htl⟩ := sinkPhase_edges_suffix tg idims rest
        (insertA nodes "output" (.output (outShapeOf tg idims n)))
        ((edges ++ n.outgoing.map (fun dd => (n.name, dd))) ++ [(n.name, "output")])
      rw [htl]
      simp
    · by_cases hs : n0.outgoing.length = 0
      · rw [if_pos hs]
        exact ih _ _ n h2 hout
      · rw [if_neg hs]
        exact ih _ _ n h2 hout

theorem sinkPhase_nodes_nosink (tg : TorchGraph) (idims : List Nat) :
    ∀ (l : List TorchNode) (nodes : List (String × NirNode))
      (edges : List (String × String)),
      l.filter (fun q => q.outgoing.isEmpty) = [] →
      (sinkPhase tg idims l nodes edges).1 = nodes := by
  intro l
  induction l with
  | nil =>
    intro nodes edges hf
    rfl
  | cons n0 rest ih =>
    intro nodes edges hf
    simp only [sinkPhase]
    rcases he : n0.outgoing.isEmpty with - | -
    · rw [if_neg (by rw [← List.isEmpty_iff_length_eq_zero, he]; decide)]
      apply ih
      rw [List.filter_cons_of_neg (by simp [he])] at hf
      exact hf
    · rw [List.filter_cons_of_pos (by rw [he])] at hf
      cases hf

theorem sinkPhase_output_lookup (tg : TorchGraph) (idims : List Nat) :
    ∀ (l : List TorchNode) (nodes : List (String × NirNode))
      (edges : List (String × String)) (last : TorchNode),
      (l.filter (fun q => q.outgoing.isEmpty)).getLast? = some last →
      lookupA (sinkPhase tg idims l nodes edges).1 "output" =
        some (.output (outShapeOf tg idims last)) := by
  intro l
  induction l with
  | nil =>
    intro nodes edges last hl
    cases hl
  | cons n0 rest ih =>
    intro nodes edges last hl
    simp only [sinkPhase]
    rcases he : n0.outgoing.isEmpty with - | -
    · rw [if_neg (by rw [← List.isEmpty_iff_length_eq_zero, he]; decide)]
      rw [List.filter_cons_of_neg (by simp [he])] at hl
      exact ih _ _ last hl
    · rw [if_pos (by rw [← List.isEmpty_iff_length_eq_zero, he])]
      rw [List.filter_cons_of_pos (by rw [he])] at hl
      rcases hrest : rest.filter (fun q => q.outgoing.isEmpty) with - | ⟨q, qs⟩
      · rw [hrest] at hl
        simp only [List.getLast?_singleton, Option.some.injEq] at hl
        rw [sinkPhase_nodes_nosink tg idims rest _ _ hrest,
          lookupA_insertA_self, hl]
      · rw [hrest] at hl
        rw [List.getLast?_cons_cons, ← hrest] at hl
        exact ih _ _ last hl

/-- C6 (counterexample to the claim as stated): the trace `tg6` has two
sink nodes `a` (recorded output shape `[2]`) and `b` (shape `[3]`); both
write the single IR key `"output"`, so `b` overwrites the `Output` node
synthesised for `a` — the resulting IR contains no `Output` node at all
that carries `a`'s recorded output shape `[2]`, hence none reachable from
`a` either. -/
theorem claim_C6_counterexample :
    extract_nir_graph tg6 (fun i => .leaf i) [5] [] =
      .ok ([("input", .input [5]), ("r", .leaf 0), ("a", .leaf 1),
            ("b", .leaf 2), ("output", .output [3])],
           [("input", "r"), ("r", "a"), ("r", "b"), ("a", "output"),
            ("b", "output")]) ∧
    (⟨"a", 1, []⟩ : TorchNode) ∈ tg6.node_list ∧
    tg6.module_output_types 1 = [2] ∧
    ([("input", NirNode.input [5]), ("r", NirNode.leaf 0),
      ("a", NirNode.leaf 1), ("b", NirNode.leaf 2),
      ("output", NirNode.output [3])] : List (String × NirNode)).all
      (fun p =>
        match p.2 with
        | NirNode.output sh => sh != [2]
        | _ => true) = true := by
  refine ⟨rfl, by decide, by decide, by decide⟩

/-- C6 (amended): extraction synthesises a single `Output` node under the
fixed key `"output"`; every traced node with no outgoing edges gets an
edge to it, and the `Output` node carries the recorded output shape (minus
ignored dimensions) of the LAST such sink node in the node list — the
shapes of earlier sinks are overwritten. -/
theorem claim_C6_amended :
    ∀ (tg : TorchGraph) (mmap : Nat → NirNode) (shape idims : List Nat)
      (nodes : List (String × NirNode)) (edges : List (String × String)),
      extract_nir_graph tg mmap shape idims = .ok (nodes, edges) →
      ∀ n ∈ tg.node_list, n.outgoing = [] →
        (n.name, "output") ∈ edges ∧
        ∃ last, (tg.node_list.filter (fun q => q.outgoing.isEmpty)).getLast? =
            some last ∧
          lookupA nodes "output" = some (.output (outShapeOf tg idims last)) := by
  intro tg mmap shape idims nodes edges h n hn hout
  simp only [extract_nir_graph] at h
  by_cases hroot : tg.getRoot.length ≠ 1
  · rw [if_pos hroot] at h
    simp at h
  · rw [if_neg hroot] at h
    simp only [Except.ok.injEq, Prod.mk.injEq] at h
    obtain ⟨hnodes, hedges⟩ := h
    constructor
    · rw [← hedges]
      exact List.mem_dedup.mpr (sinkPhase_edge_mem tg idims tg.node_list _ _ n
        hn hout)
    · have hfil : (tg.node_list.filter (fun q => q.outgoing.isEmpty)) ≠ [] := by
        intro hc
        have : n ∈ tg.node_list.filter (fun q => q.outgoing.isEmpty) :=
          List.mem_filter.mpr ⟨hn, by rw [hout]; rfl⟩
        rw [hc] at this
        cases this
      rcases hlast : (tg.node_list.filter (fun q => q.outgoing.isEmpty)).getLast?
        with - | last
      · exact absurd (List.getLast?_eq_none_iff.mp hlast) hfil
      · refine ⟨last, hlast, ?_⟩
        rw [← hnodes]
        exact sinkPhase_output_lookup tg idims tg.node_list _ _ last hlast

/-- C6 witness: on `tg6` the sink `b` has an edge to `"output"`, whose
node carries the shape of the last sink `b`. -/
theorem claim_C6_witness :
    ("b", "output") ∈ ([("input", "r"), ("r", "a"), ("r", "b"),
      ("a", "output"), ("b", "output")] : List (String × String)) ∧
    lookupA ([("input", NirNode.input [5]), ("r", NirNode.leaf 0),
      ("a", NirNode.leaf 1), ("b", NirNode.leaf 2),
      ("output", NirNode.output [3])] : List (String × NirNode)) "output" =
      some (.output (outShapeOf tg6 [] ⟨"b", 2, []⟩)) := by
  obtain ⟨h1, last, hlast, hlook⟩ := claim_C6_amended tg6 (fun i => .leaf i)
    [5] []
    [("input", .input [5]), ("r", .leaf 0), ("a", .leaf 1), ("b", .leaf 2),
     ("output", .output [3])]
    [("input", "r"), ("r", "a"), ("r", "b"), ("a", "output"), ("b", "output")]
    rfl ⟨"b", 2, []⟩ (by decide) rfl
  refine ⟨h1, ?_⟩
  have hc : (tg6.node_list.filter (fun q => q.outgoing.isEmpty)).getLast? =
      some (⟨"b", 2, []⟩ : TorchNode) := by decide
  rw [hc] at hlast
  rw [Option.some.inj hlast]
  exact hlook

theorem filterMapCongr {α β : Type} (f g : α → Option β) :
    ∀ (l : List α), (∀ a ∈ l, f a = g a) → l.filterMap f = l.filterMap g := by
  intro l
  induction l with
  | nil => intro h; rfl
  | cons a rest ih =>
    intro h
    simp only [List.filterMap_cons, h a (List.mem_cons_self a rest),
      ih (fun b hb => h b (List.mem_cons_of_mem a hb))]

theorem gatherInputs_no_feedback (inputNodes : List Node)
    (newS : GraphExecutorState) (c1 : List (String × V)) (data : Option V)
    (h : ∀ p ∈ inputNodes, containsA newS.cache p.name = true ∨
      (containsA newS.cache p.name = false ∧ containsA c1 p.name = false)) :
    gatherInputs inputNodes newS ⟨[], c1⟩ data =
      gatherInputs inputNodes newS ⟨[], []⟩ data := by
  simp only [gatherInputs]
  congr 1
  apply filterMapCongr
  intro p hp
  rcases h p hp with hnew | ⟨hnew, hc⟩
  · simp [hnew]
  · have hn' : lookupA newS.cache p.name = none := containsA_false_lookupA _ _ hnew
    have hc' : lookupA c1 p.name = none := containsA_false_lookupA _ _ hc
    simp [hn', hc', lookupA]

theorem predsResolved_split (ex : GraphExecutor) (hres : PredsResolved ex)
    (done rest : List Node) (n : Node)
    (horder : ex.execution_order = done ++ n :: rest) :
    ∀ p ∈ findSourceNodesOf ex.graph n,
      ((∃ q, q ∈ done ∧ q.name = p.name ∧ q.elem.isSome = true) ∨
       ∀ q ∈ ex.execution_order, q.elem.isSome = true → q.name ≠ p.name) := by
  intro p hp
  have hlen : done.length < ex.execution_order.length := by
    rw [horder, List.length_append, List.length_cons]
    omega
  have hgetn : ex.execution_order.get ⟨done.length, hlen⟩ = n := by
    have h1 : ex.execution_order[done.length]? = some n := by
      rw [horder, List.getElem?_append_right (Nat.le_refl done.length)]
      simp
    have h2 : ex.execution_order[done.length]? =
        some (ex.execution_order.get ⟨done.length, hlen⟩) := by
      rw [List.getElem?_eq_getElem hlen]
      rfl
    rw [h1] at h2
    exact (Option.some.inj h2).symm
  rcases hres ⟨done.length, hlen⟩ p (by rw [hgetn]; exact hp) with
    ⟨⟨jv, hjvlt⟩, hj, hjname, hjmapped⟩ | hnone
  · left
    have hjlt : jv < done.length := hj
    have h1 : ex.execution_order[jv]? = some (done.get ⟨jv, hjlt⟩) := by
      rw [horder, List.getElem?_append, if_pos hjlt,
        List.getElem?_eq_getElem hjlt]
      rfl
    have h2 : ex.execution_order[jv]? =
        some (ex.execution_order.get ⟨jv, hjvlt⟩) := by
      rw [List.getElem?_eq_getElem hjvlt]
      rfl
    rw [h1] at h2
    have heq : done.get ⟨jv, hjlt⟩ = ex.execution_order.get ⟨jv, hjvlt⟩ :=
      Option.some.inj h2
    refine ⟨done.get ⟨jv, hjlt⟩, List.get_mem done jv hjlt, ?_, ?_⟩
    · rw [heq]
      exact hjname
    · rw [heq]
      exact hjmapped
  · right
    exact hnone

theorem forwardLoop_oldCache_irrelevant (ex : GraphExecutor) (d : V)
    (c1 : List (String × V))
    (hres : PredsResolved ex)
    (hc1 : ∀ nm, containsA c1 nm = true →
      ∃ q, q ∈ ex.execution_order ∧ q.elem.isSome = true ∧ q.name = nm) :
    ∀ (rest done : List Node) (fst : Bool) (newS : GraphExecutorState),
      ex.execution_order = done ++ rest →
      (∀ nm, containsA newS.cache nm = true ↔
        ∃ q, q ∈ done ∧ q.elem.isSome = true ∧ q.name = nm) →
      forwardLoop ex d ⟨[], c1⟩ rest fst newS =
        forwardLoop ex d ⟨[], []⟩ rest fst newS := by
  intro rest
  induction rest with
  | nil =>
    intro done fst newS horder hinv
    rfl
  | cons n rest' ih =>
    intro done fst newS horder hinv
    have hsplit := predsResolved_split ex hres done rest' n horder
    have hgather : gatherInputs (findSourceNodesOf ex.graph n) newS ⟨[], c1⟩
        (bif fst then some d else none) =
        gatherInputs (findSourceNodesOf ex.graph n) newS ⟨[], []⟩
        (bif fst then some d else none) := by
      apply gatherInputs_no_feedback
      intro p hp
      rcases hsplit p hp with ⟨q, hq, hqname, hqmapped⟩ | hnone
      · left
        exact (hinv p.name).mpr ⟨q, hq, hqmapped, hqname⟩
      · right
        have hqmem : ∀ q, q ∈ done → q ∈ ex.execution_order := by
          intro q hq
          rw [horder]
          exact List.mem_append_left _ hq
        constructor
        · rcases hcnew : containsA newS.cache p.name with - | -
          · rfl
          · obtain ⟨q, hq, hqm, hqn⟩ := (hinv p.name).mp hcnew
            exact absurd hqn (hnone q (hqmem q hq) hqm)
        · rcases hcold : containsA c1 p.name with - | -
          · rfl
          · obtain ⟨q, hq, hqm, hqn⟩ := hc1 p.name hcold
            exact absurd hqn (hnone q hq hqm)
    have hap : applyModule ex.stateful_modules n (findSourceNodesOf ex.graph n)
        newS ⟨[], c1⟩ (bif fst then some d else none) =
        applyModule ex.stateful_modules n (findSourceNodesOf ex.graph n)
        newS ⟨[], []⟩ (bif fst then some d else none) :=
      applyModule_oldS_congr _ _ _ _ _ _ _ rfl hgather
    simp only [forwardLoop]
    rcases hne : n.elem with - | m
    · simp only [oelim_none]
      apply ih (done ++ [n]) fst newS
      · rw [horder, List.append_assoc]
        rfl
      · intro nm
        rw [hinv nm]
        constructor
        · rintro ⟨q, hq, h2, h3⟩
          exact ⟨q, List.mem_append_left _ hq, h2, h3⟩
        · rintro ⟨q, hq, h2, h3⟩
          rcases List.mem_append.mp hq with hq1 | hq2
          · exact ⟨q, hq1, h2, h3⟩
          · rw [List.mem_singleton.mp hq2, hne] at h2
            cases h2
    · simp only [oelim_some]
      rw [hap]
      rcases happ : applyModule ex.stateful_modules n
          (findSourceNodesOf ex.graph n) newS ⟨[], []⟩
          (bif fst then some d else none) with er | r
      · rfl
      · obtain ⟨out, newS2, args⟩ := r
        simp only [ebind_ok]
        have hcache : newS2.cache = newS.cache :=
          applyModule_ok_cache _ _ _ _ _ _ _ _ _ happ
        rw [ih (done ++ [n]) false
          { newS2 with cache := insertA newS2.cache n.name out }
          (by rw [horder, List.append_assoc]; rfl)
          (by
            intro nm
            rw [show ({ newS2 with cache := insertA newS2.cache n.name out} :
              GraphExecutorState).cache = insertA newS2.cache n.name out
              from rfl, containsA_insertA, hcache, hinv nm]
            constructor
            · rintro (h1 | ⟨q, hq, h2, h3⟩)
              · exact ⟨n, List.mem_append_right _ (List.mem_singleton.mpr rfl),
                  by rw [hne]; rfl, h1.symm⟩
              · exact ⟨q, List.mem_append_left _ hq, h2, h3⟩
            · rintro ⟨q, hq, h2, h3⟩
              rcases List.mem_append.mp hq with hq1 | hq2
              · exact Or.inr ⟨q, hq1, h2, h3⟩
              · rw [List.mem_singleton.mp hq2] at h3
                exact Or.inl h3.symm)]

theorem nodeStateless_unfold (sm : List (String × Bool)) (l : List Node)
    (h : ∀ n ∈ l, NodeStatelessB sm n = true) :
    ∀ n ∈ l, ∀ m, n.elem = some m →
      lookupA sm n.name = some false ∧
      (isRSynapticMod m && ! m.init_hidden) = false := by
  intro n hn m hm
  have hb := h n hn
  simp only [NodeStatelessB, hm, Bool.and_eq_true, beq_iff_eq,
    Bool.not_eq_true'] at hb
  exact hb

/-- C9 (counterexample to the claim as stated): `ex9c` is a graph of two
stateless identity units joined by a feedback cycle; calling forward twice
with the input `[7]`, threading the first call's returned state into the
second, yields `[7]` on the first call but `[14]` on the second — the
recurrent edge carries the first pass's cached values forward, so a
stateless graph alone does not guarantee identical output. -/
theorem claim_C9_counterexample :
    mkExecutor g9c = .ok ex9c ∧
    ex9c.execution_order.all
      (fun n => NodeStatelessB ex9c.stateful_modules n) = true ∧
    ex9c.forward (V.tensor [7]) none =
      .ok (V.tensor [7], ⟨[], [("a", V.tensor [7]), ("b", V.tensor [7])]⟩) ∧
    ex9c.forward (V.tensor [7])
        (some ⟨[], [("a", V.tensor [7]), ("b", V.tensor [7])]⟩) =
      .ok (V.tensor [14], ⟨[], [("a", V.tensor [14]), ("b", V.tensor [14])]⟩) ∧
    V.tensor [14] ≠ V.tensor [7] :=
  ⟨rfl, by decide, by decide, by decide, by decide⟩

/-- C9 (amended): for every graph containing no stateful nodes whose
execution order resolves every contributing source earlier in the order
(no realised feedback edge), calling forward twice with the same input,
threading the first call's returned state into the second call, yields the
identical result — output and state — on both calls. -/
theorem claim_C9_amended :
    ∀ (ex : GraphExecutor) (d : V) (o1 : V) (s1 : GraphExecutorState),
      PredsResolved ex →
      (∀ n ∈ ex.execution_order,
        NodeStatelessB ex.stateful_modules n = true) →
      ex.forward d none = .ok (o1, s1) →
      ex.forward d (some s1) = .ok (o1, s1) := by
  intro ex d o1 s1 hres hsl h
  obtain ⟨log, hl0, -⟩ := forward_ok_inv ex d none o1 s1 h
  have hl : forwardLoop ex d ⟨[], []⟩ ex.execution_order true ⟨[], []⟩ =
      .ok (s1, log) := hl0
  have hstate : s1.state = [] :=
    forwardLoop_state_stateless ex d ⟨[], []⟩ ex.execution_order true ⟨[], []⟩
      s1 log (nodeStateless_unfold _ _ hsl) hl
  have hs1eta : s1 = ⟨[], s1.cache⟩ := by
    rw [← hstate]
  have hkeys := forwardLoop_cache_keys ex d ⟨[], []⟩ ex.execution_order true
    ⟨[], []⟩ s1 log hl
  have hc1 : ∀ nm, containsA s1.cache nm = true →
      ∃ q, q ∈ ex.execution_order ∧ q.elem.isSome = true ∧ q.name = nm := by
    intro nm hnm
    rcases (hkeys nm).mp hnm with hfalse | hex
    · simp [containsA, lookupA] at hfalse
    · exact hex
  have heq := forwardLoop_oldCache_irrelevant ex d s1.cache hres hc1
    ex.execution_order [] true ⟨[], []⟩ rfl
    (by intro nm; simp [containsA, lookupA])
  have hloop2 : forwardLoop ex d s1 ex.execution_order true ⟨[], []⟩ =
      forwardLoop ex d ⟨[], []⟩ ex.execution_order true ⟨[], []⟩ := by
    conv_lhs => rw [hs1eta]
    exact heq
  have hfwd : ex.forward d (some s1) = ex.forward d none := by
    simp only [GraphExecutor.forward, GraphExecutor.forwardL,
      Option.getD_none, Option.getD_some]
    rw [hloop2]
  rw [hfwd]
  exact h

/-- C9 witness: on the acyclic stateless executor `ex2c`, re-feeding the
same input with the returned state reproduces the same result. -/
theorem claim_C9_witness :
    ex2c.forward (V.tensor [5]) (some ⟨[], [("a", V.tensor [5])]⟩) =
      .ok (V.tensor [5], ⟨[], [("a", V.tensor [5])]⟩) := by
  exact claim_C9_amended ex2c (V.tensor [5]) (V.tensor [5])
    ⟨[], [("a", V.tensor [5])]⟩ (by decide) (by decide) (by decide)

end NIRTorch
